import Mathlib

/-!
# A verification model of the rag-platform retrieval backend

This file gives a shallow embedding, in Lean 4, of the core algorithms of the
`rag-platform` backend (`backend/app/services/kb_service.py`,
`chat_service.py`, `graph_service.py`, `embedding_service.py`,
`core/security.py`) and proves properties of them.

Modelling conventions, used consistently below:

* A Python `str` is modelled as a Lean `String` (a sequence of unicode code
  points); all string operations are implemented structurally over the
  underlying `List Char` so that concrete runs reduce.  ASCII case folding
  models `str.lower()`, and `Char.isWhitespace` models the `\s` class; the
  claims proved here do not depend on the exotic-unicode corners where these
  approximations differ.
* A Python `float` is modelled as an exact rational (`ℚ`); `round(x, 6)` is
  modelled as exact rounding of `x` to six decimal places.  The algorithmic
  properties proved here are about comparisons and sums of scores and are
  insensitive to double-precision representation error.
* External collaborators that the service code calls — the `jieba`
  tokenizer, regular-expression intent classifiers, the SQL vector index
  ordering, the SHA-256 hash and the Fernet cipher of the `cryptography`
  package — are modelled as oracle parameters (function arguments).  Every
  theorem below holds for every choice of oracle.
* A SQLAlchemy query
  `db.query(...).filter(cond).order_by(k).limit(n)` over a table is modelled
  as filtering a Lean list of rows, stably sorting by the key, and taking
  the first `n`; a query with no `order_by` keeps table order.
* Python `dict`s (which preserve insertion order) are modelled as
  association lists with insert-or-update operations.
-/

set_option maxRecDepth 16000

namespace RagPlatform

/-! ## Basic string primitives (structural models of Python `str` operations) -/

/-- Membership of a character list as a contiguous infix, via prefix search
over all suffixes.  Models Python `needle in hay`. -/
def charsContain (hay needle : List Char) : Bool :=
  hay.tails.any fun t => needle.isPrefixOf t

/-- Python `needle in haystack` on strings. -/
def strContains (hay needle : String) : Bool :=
  charsContain hay.data needle.data

/-- Python `str.lower()`; ASCII case folding (`Char.toLower`). -/
def lowerStr (s : String) : String :=
  ⟨s.data.map Char.toLower⟩

/-- Case-insensitive containment: models both SQL `ILIKE '%needle%'` and the
Python idiom `needle.lower() in haystack.lower()`. -/
def strContainsCI (hay needle : String) : Bool :=
  strContains (lowerStr hay) (lowerStr needle)

/-- Python `str.strip()` (whitespace from both ends). -/
def trimStr (s : String) : String :=
  ⟨((s.data.dropWhile Char.isWhitespace).reverse.dropWhile Char.isWhitespace).reverse⟩

/-- Python `text[:n]`. -/
def takeStr (n : Nat) (s : String) : String :=
  ⟨s.data.take n⟩

/-- Split a character list at every character satisfying `p`, keeping empty
segments, like `re.split` on a single-character class. -/
def splitChars (p : Char → Bool) : List Char → List (List Char)
  | [] => [[]]
  | c :: rest =>
    if p c then [] :: splitChars p rest
    else
      match splitChars p rest with
      | [] => [[c]]
      | g :: gs => (c :: g) :: gs

/-- Join words with single spaces. -/
def joinWithSpace : List (List Char) → List Char
  | [] => []
  | [w] => w
  | w :: ws => w ++ ' ' :: joinWithSpace ws

/-- Model of `re.sub(r'\s+', ' ', name).strip()`: the maximal non-whitespace
runs joined by single spaces. -/
def normalizeWs (s : String) : String :=
  ⟨joinWithSpace ((splitChars Char.isWhitespace s.data).filter (· ≠ []))⟩

/-- Python string comparison `a < b`: lexicographic on code points.
Implemented structurally so that concrete comparisons evaluate. -/
def pyCharsLt : List Char → List Char → Bool
  | [], [] => false
  | [], _ :: _ => true
  | _ :: _, [] => false
  | a :: as_, b :: bs => if a.toNat < b.toNat then true
      else if b.toNat < a.toNat then false
      else pyCharsLt as_ bs

/-- Python `a < b` on strings. -/
def pyStrLt (a b : String) : Bool :=
  pyCharsLt a.data b.data

/-- Python `a <= b` on strings (total order, so `a <= b ↔ ¬ b < a`). -/
def pyStrLe (a b : String) : Bool :=
  !pyStrLt b a

/-- Stable insertion into a sorted list: `x` is placed before the first
element `y` with `le x y`. -/
def insertSortedBy {α : Type} (le : α → α → Bool) (x : α) : List α → List α
  | [] => [x]
  | y :: ys => if le x y then x :: y :: ys else y :: insertSortedBy le x ys

/-- Stable sort (insertion sort).  With `le a b` true on ties this keeps the
original relative order of equal elements, exactly like Python's `sorted`
(resp. `sorted(..., reverse=True)` when called with the flipped key
comparison). -/
def stableSortBy {α : Type} (le : α → α → Bool) : List α → List α
  | [] => []
  | x :: xs => insertSortedBy le x (stableSortBy le xs)

/-- First-occurrence deduplication, used to model iteration over a Python
`set(...)` built from a list (the set's iteration order is modelled as
first-occurrence order; no property proved here depends on that order). -/
def dedupFirst : List String → List String
  | [] => []
  | x :: xs => x :: (dedupFirst xs).filter (fun y => y ≠ x)

/-- Exact rounding to six decimal places: models `round(x, 6)` from the
source (double rounding error is abstracted away, see the header). -/
def round6 (q : ℚ) : ℚ :=
  ((round (q * 1000000) : ℤ) : ℚ) / 1000000

/-- Maximum of a list of rationals with default `0` for the empty list;
models Python `max(...)` over the (always nonempty) generator expressions
it is applied to below. -/
def listMaxQ : List ℚ → ℚ
  | [] => 0
  | x :: xs => xs.foldl max x

/-! ## `graph_service.py`: entity normalization and relation extraction -/

/-- `normalize_entity` (graph_service.py): collapse internal whitespace and
strip; pure Latin/digit/punctuation tokens are lowercased, anything else is
kept as-is. -/
def normalize_entity (name : String) : String :=
  let stripped := normalizeWs name
  if stripped = "" then ""
  else if stripped.data.all
      (fun c => c.isAlpha || c.isDigit || c = '_' || c = '-' || c = '/' || c = ' ') then
    lowerStr stripped
  else stripped

/-- `infer_relation_type` (graph_service.py): lexical triggers decide the
relation type of a sentence, defaulting to `co_occurs`. -/
def infer_relation_type (sentence : String) : String :=
  let lowered := lowerStr sentence
  if strContains sentence "属于" || strContains sentence "是一种"
      || strContains lowered " is a " then "is_a"
  else if strContains sentence "包括" || strContains sentence "包含"
      || strContains lowered " consist of " || strContains lowered " includes " then "contains"
  else if strContains sentence "依赖" || strContains sentence "基于"
      || strContains lowered " depends on " then "depends_on"
  else if strContains sentence "导致" || strContains sentence "造成"
      || strContains lowered " causes " then "causes"
  else "co_occurs"

/-- Sentence splitting on CJK/Latin terminal punctuation
(`SENTENCE_SPLIT_PATTERN` in graph_service.py). -/
def sentenceSplit (text : String) : List String :=
  ((splitChars (fun c =>
      c = '。' || c = '！' || c = '？' || c = '!' || c = '?' || c = ';' || c = '；' || c = '\n')
    text.data).map (fun l => (⟨l⟩ : String)))

/-- All ordered pairs `(entities[i], entities[j])` with `i < j`, as produced
by the nested index loops in `extract_relations_from_text`. -/
def pairsOf {α : Type} : List α → List (α × α)
  | [] => []
  | x :: xs => (xs.map fun y => (x, y)) ++ pairsOf xs

/-- The swap/skip canonicalization applied to each entity pair in
`extract_relations_from_text`: drop pairs whose normalized names coincide,
and order the pair so the lexicographically smaller normalized name comes
first (Python `normalize_entity(source) > normalize_entity(target)`
triggers the swap). -/
def canonPair (source target : String) : Option (String × String) :=
  if normalize_entity source = normalize_entity target then none
  else if pyStrLt (normalize_entity target) (normalize_entity source) then some (target, source)
  else some (source, target)

/-- `extract_relations_from_text` (graph_service.py).  Entity extraction
(`extract_entities_from_text`) runs the external `jieba` part-of-speech
tagger, so it is an oracle parameter `extractEntities text maxEntities`;
every theorem about this function holds for every oracle.  Each returned
tuple is `(source, target, relation_type, evidence)`. -/
def extract_relations_from_text (extractEntities : String → Nat → List String)
    (text : String) : List (String × String × String × String) :=
  (sentenceSplit text).flatMap fun sentRaw =>
    let sentence := trimStr sentRaw
    if sentence = "" then []
    else
      let entities := extractEntities sentence 8
      if entities.length < 2 then []
      else
        let rtype := infer_relation_type sentence
        (pairsOf entities).filterMap fun st =>
          (canonPair st.1 st.2).map fun p => (p.1, p.2, rtype, takeStr 240 sentence)

/-- The normalized-name relation keys that `rebuild_library_graph`
(graph_service.py) derives from the chunk contents of a library: for each
chunk, each extracted relation tuple contributes the key
`(normalize_entity source, normalize_entity target, relation_type)`.
The keys actually inserted into `relation_counter` by the source are a
subset of this list (the source additionally deduplicates keys and drops
keys whose endpoints are missing from `entity_counter`), so any property
proved for every member of this list holds for every stored key. -/
def rebuildRelationKeyCandidates (extractEntities : String → Nat → List String)
    (chunkContents : List String) : List (String × String × String) :=
  chunkContents.flatMap fun content =>
    (extract_relations_from_text extractEntities content).map fun r =>
      (normalize_entity r.1, normalize_entity r.2.1, r.2.2.1)

/-! ## `embedding_service.py`: vector dimension normalization -/

/-- `normalize_vector_dim` (embedding_service.py): truncate long vectors,
zero-pad short ones, so the result always has length `target_dim`. -/
def normalize_vector_dim (vector : List ℚ) (target_dim : Nat) : List ℚ :=
  let current_dim := vector.length
  if current_dim = target_dim then vector
  else if target_dim < current_dim then vector.take target_dim
  else vector ++ List.replicate (target_dim - current_dim) 0

/-! ## `core/security.py`: secret encryption round trip -/

/-- The settings fields consulted by `get_fernet` (core/security.py). -/
structure SecuritySettings where
  encryption_key : Option String
  secret_key : String

/-- Abstract model of the Fernet authenticated symmetric cipher from the
external `cryptography` package: encryption and decryption, keyed by the
Fernet key material.  Its round-trip contract is assumed as an explicit
hypothesis where needed, never as an axiom. -/
structure FernetCipher where
  encrypt : String → String → String
  decrypt : String → String → String

/-- `settings.encryption_key or settings.secret_key` (Python falsiness:
`None` and the empty string both fall through to the secret key). -/
def fernetKeyValue (st : SecuritySettings) : String :=
  match st.encryption_key with
  | some k => if k = "" then st.secret_key else k
  | none => st.secret_key

/-- `get_fernet` (core/security.py): a 44-byte value is used directly as the
Fernet key, anything else is passed through the SHA-256/base64 derivation
`_derive_fernet_key` (modelled by the oracle `sha`).  Both
`encrypt_secret` and `decrypt_secret` call this with the same process-wide
settings, so they agree on the key. -/
def get_fernet (sha : String → String) (st : SecuritySettings) : String :=
  let key_value := fernetKeyValue st
  if key_value.utf8ByteSize = 44 then key_value else sha key_value

/-- `encrypt_secret` (core/security.py). -/
def encrypt_secret (F : FernetCipher) (sha : String → String)
    (st : SecuritySettings) (value : String) : String :=
  if value = "" then "" else F.encrypt (get_fernet sha st) value

/-- `decrypt_secret` (core/security.py). -/
def decrypt_secret (F : FernetCipher) (sha : String → String)
    (st : SecuritySettings) (value : String) : String :=
  if value = "" then "" else F.decrypt (get_fernet sha st) value

/-! ## `chat_service.py`: token estimation and the no-hit decision -/

/-- `_estimate_text_tokens` (chat_service.py): `0` for the empty string,
otherwise `max(1, int(ascii_chars/4 + non_ascii_chars/1.6))` where
`int` truncates (the estimate is nonnegative, so truncation is `⌊·⌋`). -/
def estimate_text_tokens (text : String) : ℤ :=
  if text = "" then 0
  else
    let ascii_chars := (text.data.filter fun c => c.toNat < 128).length
    let non_ascii_chars := text.length - ascii_chars
    let token_estimate : ℤ := ⌊(ascii_chars : ℚ) / 4 + (non_ascii_chars : ℚ) / 1.6⌋
    max 1 token_estimate

/-- The no-hit decision of the reply orchestrator
(`generate_reply` / `generate_reply_stream`, chat_service.py):
the deterministic no-hit guidance message is emitted exactly when
`available_library_ids and not retrieved` holds, i.e. when some library was
resolved but retrieval returned nothing.  `retrieved` is kept abstract here
as the list returned by `hybrid_search`. -/
def emitsNoHitMessage {α : Type} (available_library_ids : List String)
    (retrieved : List α) : Bool :=
  !available_library_ids.isEmpty && retrieved.isEmpty

/-! ## `kb_service.py`: character-window chunking (`_split_text`) -/

/-- The loop body of `_split_text` (kb_service.py) at the default
`chunk_size = 500`, `overlap = 80` (the only instantiation used by the
ingestion path `_reindex_single_file`): repeatedly take
`text[start : start+500]` and advance `start` to `end - 80` until the
window reaches the end of the text.  Total because each continuing step
advances `start` by `500 − 80 = 420`. -/
def splitTextGo (l : List Char) (start : Nat) : List (List Char) :=
  if _h : start < l.length then
    if l.length ≤ min (start + 500) l.length then
      [(l.drop start).take (min (start + 500) l.length - start)]
    else
      (l.drop start).take (min (start + 500) l.length - start)
        :: splitTextGo l (min (start + 500) l.length - 80)
  else []
termination_by l.length - start
decreasing_by
  simp only [not_le] at *
  omega

/-- `_split_text(text)` (kb_service.py) with the default chunk size 500 and
overlap 80; returns the list of chunk character windows (`text[start:end]`
for `start = 0, 420, 840, …`).  The `if not text: return []` guard is
subsumed by the loop condition `start < len(text)`. -/
def split_text (text : String) : List (List Char) :=
  splitTextGo text.data 0

/-! ## `kb_service.py`: the hybrid retrieval engine

The data model: a row of the joined chunk query
`db.query(Chunk, KnowledgeFile.filename).join(...)`. UUIDs are modelled as
strings. -/

structure MRow where
  chunk_id : String
  file_id : String
  library_id : String
  file_name : String
  content : String
  deriving DecidableEq, Repr

/-- A retrieval hit record, exactly the dictionary built by
`_serialize_chunk_result` (kb_service.py). -/
structure HitRec where
  chunk_id : String
  file_id : String
  library_id : String
  file_name : String
  snippet : String
  score : ℚ
  source : String
  matched_entities : List String
  vector_similarity : ℚ
  keyword_overlap : ℚ
  graph_overlap : ℚ
  entity_overlap : ℚ
  anchor_overlap : ℚ
  query_focus_overlap : ℚ
  deriving DecidableEq, Repr

/-- The runtime retrieval configuration produced by
`build_runtime_retrieval_config` (retrieval_profile_service.py): one field
per key of the returned dict.  That function clamps every integer field
into a nonnegative range, so the integer fields are modelled as `Nat`. -/
structure RuntimeConfig where
  rag_min_top1_score : ℚ
  rag_min_support_score : ℚ
  rag_min_support_count : Nat
  rag_min_item_score : ℚ
  rag_graph_max_terms : Nat
  graph_channel_weight : ℚ
  graph_only_penalty : ℚ
  vector_semantic_min : ℚ
  alias_intent_enabled : Bool
  alias_mining_max_terms : Nat
  co_reference_enabled : Bool
  vector_candidate_multiplier : Nat
  keyword_candidate_multiplier : Nat
  graph_candidate_multiplier : Nat
  fallback_relax_enabled : Bool
  fallback_top1_relax : ℚ
  fallback_support_relax : ℚ
  fallback_item_relax : ℚ
  summary_intent_enabled : Bool
  summary_expand_factor : Nat
  summary_min_chunks : Nat
  summary_per_file_cap : Nat
  summary_min_files : Nat
  keyword_fallback_expand_on_weak_hits : Bool
  keyword_fallback_max_chunks : Nat
  keyword_fallback_min_score : ℚ
  keyword_fallback_scan_limit : Nat
  deriving DecidableEq, Repr

/-- The per-query oracle bundle: the values that `hybrid_search` derives
from the query text via the external `jieba` tokenizer, the
regular-expression intent classifiers, the embedding backend, and the graph
expansion / alias mining / roster mining scans (kb_service.py lines
497–663).  Everything downstream of these values — the three channel
queries, candidate scoring, fusion, gating, relaxation, fallback and
selection — is implemented below; every theorem holds for every oracle. -/
structure QueryOracle where
  /-- `Chunk.embedding.cosine_distance(query_embedding)` per row. -/
  vectorDistance : MRow → ℚ
  /-- `is_global_summary_query(query)`. -/
  isGlobalSummary : Bool
  /-- `_is_count_intent_query(query)`. -/
  countIntent : Bool
  /-- `_is_roster_intent_query(query) or _is_group_count_query(query)`. -/
  rosterIntent : Bool
  /-- `_has_count_signal(text, unit_hints=count_unit_hints)` (regex). -/
  countSignal : String → Bool
  /-- `_has_roster_signal(text, anchor_terms)` (regex plus anchors). -/
  rosterSignal : String → List String → Bool
  /-- `all_query_terms` after the `list(set(...))` at line 553: the raw
  query, the contextual query, matched entity names/aliases and jieba
  search tokens. -/
  rawQueryTerms : List String
  /-- `jieba.cut_for_search(query)` tokens (input to `query_focus_terms`). -/
  queryTokens : List String
  /-- `_extract_entities_for_search(query, limit=10)`. -/
  queryEntities : List String
  /-- `_select_context_entities(...)` output. -/
  contextEntities : List String
  /-- `graph_terms` after graph expansion and optional alias mining
  (state at line 644). -/
  graphTermsBase : List String
  /-- `graph_expansion['matched_entities']`. -/
  graphMatches : List String
  /-- `_mine_related_terms_by_graph_neighbors(...)` output. -/
  rosterMinedTerms : List String

/-! ### Term-set helpers (kb_service.py) -/

/-- `_merge_entities_preserve_order`: concatenate, deduplicate by
normalized form, cap at `limit`. -/
def merge_entities_preserve_order (primary secondary : List String) (limit : Nat) : List String :=
  let step : List String × List String → String → List String × List String := fun acc item =>
    let cleaned := trimStr item
    let norm := normalize_entity cleaned
    if norm = "" || acc.2.contains norm || limit ≤ acc.1.length then acc
    else (acc.1 ++ [cleaned], acc.2 ++ [norm])
  ((primary ++ secondary).foldl step ([], [])).1

/-- `_normalize_search_terms`: normalize, drop short terms, deduplicate,
cap at `max_terms`. -/
def normalize_search_terms (terms : List String) (max_terms : Nat) : List String :=
  (terms.foldl (fun acc term =>
    let norm := normalize_entity term
    if norm.length < 2 || acc.contains norm || max_terms ≤ acc.length then acc
    else acc ++ [norm]) [])

/-- The query-noise term set `QUERY_NOISE_TERMS` (kb_service.py). -/
def QUERY_NOISE_TERMS : List String :=
  ["几个", "多少", "哪些", "什么", "为何", "为什么", "怎么", "如何", "是否", "请问", "一下", "一下子"]

/-- The Latin stopword set `EN_STOPWORDS` (graph_service.py). -/
def EN_STOPWORDS : List String :=
  ["the", "and", "for", "with", "from", "this", "that", "into", "then", "than",
   "are", "is", "was", "were", "what", "when", "where", "who", "why", "how",
   "can", "will", "should", "could", "would", "use", "using", "used", "data", "model"]

/-- The CJK stopword set `ZH_STOPWORDS` (graph_service.py). -/
def ZH_STOPWORDS : List String :=
  ["我们", "你们", "他们", "这些", "那些", "这个", "那个",
   "以及", "或者", "可以", "进行", "因为", "所以", "通过",
   "如果", "然后", "其中", "一种", "什么",
   "怎么", "如何", "为什么", "时候", "地方", "人们", "大家",
   "自己", "没有", "有的", "还有", "一些", "其他", "可能"]

/-- `_filter_keyword_queries`: keep raw terms whose normalized form has
length ≥ 2, is not noise or a stopword, deduplicated, capped. -/
def filter_keyword_queries (terms : List String) (max_terms : Nat) : List String :=
  ((terms.foldl (fun acc term =>
    let raw := trimStr term
    let norm := normalize_entity raw
    if norm.length < 2 || acc.2.contains norm
        || QUERY_NOISE_TERMS.contains norm || EN_STOPWORDS.contains norm
        || ZH_STOPWORDS.contains norm || max_terms ≤ acc.1.length then acc
    else (acc.1 ++ [raw], acc.2 ++ [norm])) ([], []) : List String × List String)).1

/-- `_build_anchor_terms`: query entities, context entities and focus terms
merged and normalized, with the cap clamped into `[6, 24]`. -/
def build_anchor_terms (query_entities context_entities query_focus_terms : List String)
    (max_terms : Nat) : List String :=
  let max_terms := max 6 (min max_terms 24)
  let terms0 := merge_entities_preserve_order query_entities context_entities max_terms
  let terms := query_focus_terms.foldl (fun acc token =>
    let norm := normalize_entity token
    if norm.length < 2 || QUERY_NOISE_TERMS.contains norm then acc
    else merge_entities_preserve_order acc [norm] max_terms) terms0
  normalize_search_terms terms max_terms

/-! ### Scoring (kb_service.py) -/

/-- `_term_hit_ratio`: the fraction of the (at most 8 counted) normalized
terms that occur in the lowercased text, clipped to 1 and rounded. -/
def term_hit_ratio (text : String) (normalized_terms : List String) : ℚ :=
  if text = "" || normalized_terms = [] then 0
  else
    let hit_count := (normalized_terms.filter fun term =>
      term ≠ "" && strContainsCI text term).length
    let denominator := max 1 (min normalized_terms.length 8)
    round6 (min 1 ((hit_count : ℚ) / (denominator : ℚ)))

/-- `_score_vector_candidate`: returns `(score, vector_similarity)` where
`sim = clamp(1 − distance)` and `score = 0.85·sim + 0.15/(rank+1)`. -/
def score_vector_candidate (distance : Option ℚ) (rank : Nat) : ℚ × ℚ :=
  let safe_distance := match distance with
    | none => 1
    | some d => max 0 d
  let vector_similarity := max 0 (min 1 (1 - safe_distance))
  let rank_signal : ℚ := 1 / ((rank : ℚ) + 1)
  let score := 0.85 * vector_similarity + 0.15 * rank_signal
  (round6 score, round6 vector_similarity)

/-- `_score_sparse_candidate`:
`channel_weight · (0.55·hit_ratio + 0.35/(rank+1) + 0.10·entity_boost)`. -/
def score_sparse_candidate (rank : Nat) (hit_ratio : ℚ) (entity_boost : ℚ)
    (channel_weight : ℚ) : ℚ :=
  let rank_signal : ℚ := 1 / ((rank : ℚ) + 1)
  let raw_score := 0.55 * hit_ratio + 0.35 * rank_signal + 0.10 * entity_boost
  round6 (channel_weight * raw_score)

/-- `score_merge` (graph_service.py): rounded sum. -/
def score_merge (current_score increment : ℚ) : ℚ :=
  round6 (current_score + increment)

/-- `summarize_graph_sources` (graph_service.py): join the sorted
de-duplicated source labels with `_`. -/
def summarize_graph_sources (sources : List String) : String :=
  match sources with
  | [] => "none"
  | [s] => s
  | _ => String.intercalate "_" (stableSortBy pyStrLe (dedupFirst sources))

/-- `_score_keyword_candidate`:
`0.52·keyword_overlap + 0.32·anchor_overlap + count_boost + roster_boost`. -/
def score_keyword_candidate (O : QueryOracle) (content : String)
    (keyword_term_set anchor_term_set : List String)
    (count_intent roster_intent : Bool) : ℚ :=
  let keyword_overlap := term_hit_ratio content keyword_term_set
  let anchor_overlap := term_hit_ratio content anchor_term_set
  let count_boost : ℚ := if count_intent && O.countSignal content then 0.10 else 0
  let roster_boost : ℚ := if roster_intent && O.rosterSignal content anchor_term_set then 0.10 else 0
  round6 (0.52 * keyword_overlap + 0.32 * anchor_overlap + count_boost + roster_boost)

/-! ### `_serialize_chunk_result` and the fusion dictionary -/

/-- `_serialize_chunk_result` (kb_service.py): build a hit record from a
chunk row; the snippet is the first 500 characters. -/
def serialize_chunk_result (row : MRow) (score : ℚ) (source : String)
    (matched_entities : List String) (vector_similarity keyword_overlap
    graph_overlap entity_overlap : ℚ) : HitRec :=
  { chunk_id := row.chunk_id
    file_id := row.file_id
    library_id := row.library_id
    file_name := row.file_name
    snippet := takeStr 500 row.content
    score := round6 score
    source := source
    matched_entities := matched_entities
    vector_similarity := round6 vector_similarity
    keyword_overlap := round6 keyword_overlap
    graph_overlap := round6 graph_overlap
    entity_overlap := round6 entity_overlap
    anchor_overlap := 0
    query_focus_overlap := 0 }

/-- The fusion dictionary `merged: dict[str, dict]`, as an insertion-ordered
association list. -/
abbrev HitMap := List (String × HitRec)

/-- `merged[key] = value` (replace in place, else append). -/
def hitMapSet (m : HitMap) (k : String) (v : HitRec) : HitMap :=
  if m.any (fun p => p.1 = k) then m.map (fun p => if p.1 = k then (k, v) else p)
  else m ++ [(k, v)]

/-- The `if key in merged: 〈update〉 else: 〈insert〉` pattern of the fusion
loops. -/
def hitMapUpsert (m : HitMap) (k : String) (upd : HitRec → HitRec) (v : HitRec) : HitMap :=
  if m.any (fun p => p.1 = k) then m.map (fun p => if p.1 = k then (k, upd p.2) else p)
  else m ++ [(k, v)]

/-- `merged.values()` in insertion order. -/
def hitMapValues (m : HitMap) : List HitRec :=
  m.map Prod.snd

/-! ### Acceptance gate and lenient signals (kb_service.py) -/

/-- `_is_retrieval_hit`: the acceptance gate over a sorted candidate
window. -/
def is_retrieval_hit (candidates : List HitRec) (cfg : RuntimeConfig) : Bool :=
  match candidates with
  | [] => false
  | top :: _ =>
    let top1_score := top.score
    let support_count := (candidates.filter fun item =>
      cfg.rag_min_support_score ≤ item.score).length
    if top1_score < cfg.rag_min_top1_score then false
    else if support_count < cfg.rag_min_support_count
        && top1_score < cfg.rag_min_top1_score + 0.15 then false
    else
      let window := candidates.take (max 3 cfg.rag_min_support_count)
      let lexical_signal := window.any fun item => 0 < item.keyword_overlap
      let entity_signal := window.any fun item => 0 < item.entity_overlap
      let graph_signal := window.any fun item => 0 < item.graph_overlap
      let anchor_signal := window.any fun item => 0 < item.anchor_overlap
      let query_focus_signal := window.any fun item => 0 < item.query_focus_overlap
      let semantic_signal := cfg.vector_semantic_min ≤ top.vector_similarity
      if lexical_signal || entity_signal || anchor_signal || query_focus_signal then true
      else if graph_signal && semantic_signal then true
      else semantic_signal && (cfg.rag_min_top1_score + 0.08 ≤ top1_score)

/-- The falsy chain `item.get('file_id') or item.get('file_name') or ''`
used by `_has_summary_signals` for the file span. -/
def fileSpanKey (item : HitRec) : String :=
  if item.file_id ≠ "" then item.file_id
  else if item.file_name ≠ "" then item.file_name
  else ""

/-- `_has_summary_signals`: the looser summary-mode acceptance evidence. -/
def has_summary_signals (candidates : List HitRec) (cfg : RuntimeConfig) : Bool :=
  match candidates with
  | [] => false
  | _ =>
    let vector_floor := max 0 (cfg.vector_semantic_min * 0.8)
    let lexical_hits := (candidates.filter fun item =>
      0 < item.keyword_overlap || 0 < item.entity_overlap).length
    let semantic_hits := (candidates.filter fun item =>
      vector_floor ≤ item.vector_similarity).length
    let file_span := ((candidates.map fileSpanKey).dedup).length
    let avg_score := (candidates.map (·.score)).sum / (max 1 candidates.length : ℚ)
    1 ≤ lexical_hits || 2 ≤ semantic_hits
      || (2 ≤ file_span && cfg.rag_min_item_score ≤ avg_score)

/-- `_has_lenient_hit_signals`: per-item lenient evidence over the first
eight candidates (the `_has_count_signal` / `_has_roster_signal`
regular-expression classifiers come from the oracle; the lenient roster
check passes no anchor terms). -/
def has_lenient_hit_signals (O : QueryOracle) (candidates : List HitRec)
    (cfg : RuntimeConfig) (count_intent roster_intent : Bool) : Bool :=
  match candidates with
  | [] => false
  | _ =>
    let window := candidates.take 8
    let vector_floor := max 0 (cfg.vector_semantic_min * 0.85)
    window.any fun item =>
      (0.22 ≤ item.query_focus_overlap
        && (0 < item.keyword_overlap || 0 < item.entity_overlap
            || 0 < item.anchor_overlap || vector_floor ≤ item.vector_similarity))
      || (0.20 ≤ item.keyword_overlap
        && (0.08 ≤ item.entity_overlap || 0.08 ≤ item.anchor_overlap))
      || (count_intent && O.countSignal item.snippet
        && (0.15 ≤ item.query_focus_overlap || 0.12 ≤ item.keyword_overlap
            || 0.08 ≤ item.entity_overlap || 0.08 ≤ item.anchor_overlap))
      || (roster_intent && O.rosterSignal item.snippet []
        && (0.12 ≤ item.query_focus_overlap || 0.10 ≤ item.keyword_overlap
            || 0.08 ≤ item.entity_overlap || 0.08 ≤ item.anchor_overlap))

/-! ### Summary-mode diversity selection (`_select_diverse_hits`) -/

/-- The falsy chain
`item.get('file_id') or item.get('file_name') or item.get('chunk_id')`
that buckets candidates by file. -/
def fileKey (item : HitRec) : String :=
  if item.file_id ≠ "" then item.file_id
  else if item.file_name ≠ "" then item.file_name
  else item.chunk_id

/-- Append an item to its file bucket (`buckets.setdefault(k, []).append`). -/
def bucketAdd (bs : List (String × List HitRec)) (k : String) (item : HitRec) :
    List (String × List HitRec) :=
  if bs.any (fun p => p.1 = k) then
    bs.map fun p => if p.1 = k then (p.1, p.2 ++ [item]) else p
  else bs ++ [(k, [item])]

/-- The bucket dictionary built by the first loop of
`_select_diverse_hits`, in insertion order. -/
def bucketsOfAux (bs : List (String × List HitRec)) : List HitRec → List (String × List HitRec)
  | [] => bs
  | item :: rest => bucketsOfAux (bucketAdd bs (fileKey item) item) rest

/-- Buckets of candidates keyed by `fileKey`. -/
def bucketsOf (candidates : List HitRec) : List (String × List HitRec) :=
  bucketsOfAux [] candidates

/-- Sorting key of a bucket: the score of its first (best) chunk. -/
def bucketScore (p : String × List HitRec) : ℚ :=
  match p.2 with
  | [] => 0
  | h :: _ => h.score

/-- The mutable state of the selection loops of `_select_diverse_hits`. -/
structure DiverseState where
  selected : List HitRec
  used : List String
  takenPerFile : List (String × Nat)
  deriving Repr

/-- `taken_per_file.get(k, 0)`. -/
def tpfGet (m : List (String × Nat)) (k : String) : Nat :=
  match m.find? (fun p => p.1 = k) with
  | some p => p.2
  | none => 0

/-- `taken_per_file[k] = n`. -/
def tpfSet (m : List (String × Nat)) (k : String) (n : Nat) : List (String × Nat) :=
  if m.any (fun p => p.1 = k) then m.map (fun p => if p.1 = k then (k, n) else p)
  else m ++ [(k, n)]

/-- Coverage phase of `_select_diverse_hits`: take the top chunk of each of
the highest-scoring files until `target_coverage` chunks are selected. -/
def diversePhase1 (sorted_files : List (String × List HitRec)) (target : Nat) : DiverseState :=
  sorted_files.foldl (fun st p =>
    if target ≤ st.selected.length then st
    else
      match p.2 with
      | [] => st
      | candidate :: _ =>
        if st.used.contains candidate.chunk_id then st
        else { selected := st.selected ++ [candidate]
               used := st.used ++ [candidate.chunk_id]
               takenPerFile := tpfSet st.takenPerFile p.1 1 })
    ⟨[], [], []⟩

/-- One pass of the round-robin `for file_key, items in sorted_files` loop;
the booleans carry `progress` and the inner `break` once `top_k` is
reached. -/
def diversePassStep (top_k cap : Nat) (acc : DiverseState × Bool × Bool)
    (p : String × List HitRec) : DiverseState × Bool × Bool :=
  let (st, progress, stop) := acc
  if stop then acc
  else
    let used_count := tpfGet st.takenPerFile p.1
    if cap ≤ used_count then acc
    else if p.2.length ≤ used_count then acc
    else
      match p.2[used_count]? with
      | none => acc
      | some candidate =>
        let st1 : DiverseState := { st with takenPerFile := tpfSet st.takenPerFile p.1 (used_count + 1) }
        if st1.used.contains candidate.chunk_id then (st1, progress, stop)
        else
          let st2 : DiverseState := { st1 with
            selected := st1.selected ++ [candidate]
            used := st1.used ++ [candidate.chunk_id] }
          if top_k ≤ st2.selected.length then (st2, true, true) else (st2, true, stop)

/-- The round-robin `while len(selected) < top_k and progress` loop.  Every
pass that reports progress strictly grows `selected`, so running the loop
with fuel `candidates.length + 1` (as `select_diverse_hits` does below)
reaches the loop's fixpoint. -/
def diverseLoop (sorted_files : List (String × List HitRec)) (top_k cap : Nat) :
    Nat → DiverseState → DiverseState
  | 0, st => st
  | fuel + 1, st =>
    if st.selected.length < top_k then
      let out := sorted_files.foldl (diversePassStep top_k cap) (st, false, false)
      if out.2.1 then diverseLoop sorted_files top_k cap fuel out.1 else out.1
    else st

/-- The final greedy fill `for candidate in candidates` that runs when the
previous phases selected fewer than `top_k` chunks.  Note that it ignores
`per_file_cap`. -/
def diverseFill (candidates : List HitRec) (top_k : Nat) (st : DiverseState) : DiverseState :=
  candidates.foldl (fun st candidate =>
    if top_k ≤ st.selected.length then st
    else if st.used.contains candidate.chunk_id then st
    else { st with selected := st.selected ++ [candidate]
                   used := st.used ++ [candidate.chunk_id] }) st

/-- `_select_diverse_hits` (kb_service.py): coverage, round-robin up to the
per-file cap, then greedy fill; caps clamped to `[1,6]` and `[1,10]`. -/
def select_diverse_hits (candidates : List HitRec) (top_k per_file_cap min_files : Nat) :
    List HitRec :=
  if candidates = [] then []
  else
    let per_file_cap := max 1 (min per_file_cap 6)
    let min_files := max 1 (min min_files 10)
    let sorted_files := stableSortBy
      (fun a b => decide (bucketScore b ≤ bucketScore a)) (bucketsOf candidates)
    let target_coverage := min (min sorted_files.length min_files) top_k
    let st1 := diversePhase1 sorted_files target_coverage
    let st2 := diverseLoop sorted_files top_k per_file_cap (candidates.length + 1) st1
    let st3 := diverseFill candidates top_k st2
    st3.selected.take top_k

/-! ### Finalization, relaxation, fallback and merge (kb_service.py) -/

/-- `_finalize_retrieval_hits`: prune by `rag_min_item_score`, check the
gate (with lenient fall-backs when `allow_lenient`), then either take the
diverse selection (summary mode) or the top `top_k`. -/
def finalize_retrieval_hits (O : QueryOracle) (ordered : List HitRec) (top_k : Nat)
    (cfg : RuntimeConfig) (summary_mode allow_lenient count_intent roster_intent : Bool) :
    List HitRec :=
  match ordered with
  | [] => []
  | _ =>
    let pruned := ordered.filter fun item => cfg.rag_min_item_score ≤ item.score
    if pruned = [] then []
    else
      let validation_window := pruned.take (max (top_k * 2) (cfg.rag_min_support_count + 1))
      let hit_ok := is_retrieval_hit validation_window cfg
      let summary_lenient := summary_mode && allow_lenient
        && has_summary_signals validation_window cfg
      let general_lenient := allow_lenient
        && has_lenient_hit_signals O validation_window cfg count_intent roster_intent
      if !hit_ok && !summary_lenient && !general_lenient then []
      else if summary_mode then
        select_diverse_hits pruned top_k cfg.summary_per_file_cap cfg.summary_min_files
      else pruned.take top_k

/-- `clamp_float` of `_build_relaxed_runtime_config` (the parse-failure
fallback cannot trigger on an exact rational). -/
def clampQ (value lower upper : ℚ) : ℚ :=
  max lower (min upper value)

/-- `_build_relaxed_runtime_config`: subtract the `fallback_*_relax`
amounts from the thresholds, floor the support count at 1, and halve the
semantic relax. -/
def build_relaxed_runtime_config (cfg : RuntimeConfig) : RuntimeConfig :=
  let top1_relax := clampQ cfg.fallback_top1_relax 0 0.30
  let support_relax := clampQ cfg.fallback_support_relax 0 0.30
  let item_relax := clampQ cfg.fallback_item_relax 0 0.20
  { cfg with
    rag_min_top1_score := max 0 (cfg.rag_min_top1_score - top1_relax)
    rag_min_support_score := max 0 (cfg.rag_min_support_score - support_relax)
    rag_min_item_score := max 0 (cfg.rag_min_item_score - item_relax)
    rag_min_support_count := max 1 (cfg.rag_min_support_count - 1)
    vector_semantic_min := max 0 (cfg.vector_semantic_min - support_relax * 0.5) }

/-- `_should_expand_to_keyword_fallback`: detect weak primary hits (missing
anchors, missing count/roster evidence, or few lexical hits with a top
score barely above the gate). -/
def should_expand_to_keyword_fallback (O : QueryOracle) (hits : List HitRec)
    (cfg : RuntimeConfig) (anchor_term_set : List String)
    (count_intent roster_intent summary_mode : Bool) : Bool :=
  match hits with
  | [] => false
  | top :: _ =>
    if summary_mode then false
    else if !cfg.keyword_fallback_expand_on_weak_hits then false
    else
      let window := hits.take (min hits.length 8)
      let top_anchor := listMaxQ (window.map (·.anchor_overlap))
      if anchor_term_set ≠ [] && top_anchor = 0 then true
      else if count_intent && !(window.any fun item => O.countSignal item.snippet) then true
      else if roster_intent
          && !(window.any fun item => O.rosterSignal item.snippet anchor_term_set) then true
      else
        let weak_lexical_hits := (window.filter fun item =>
          0.12 ≤ item.keyword_overlap || 0.10 ≤ item.anchor_overlap).length
        weak_lexical_hits ≤ 1 && top.score < cfg.rag_min_top1_score + 0.05

/-- The deduplicating result loop at the end of
`_fulltext_keyword_fallback_search` (sorted rescored rows → serialized
hits, skipping repeated chunk ids, capped at `max_chunks`). -/
def fallbackCollect (matched_entities : List String) (max_chunks : Nat) :
    List (ℚ × MRow × ℚ × ℚ) → List HitRec → List String → List HitRec
  | [], results, _ => results
  | (score, row, keyword_overlap, anchor_overlap) :: rest, results, used =>
    if max_chunks ≤ results.length then results
    else if used.contains row.chunk_id then
      fallbackCollect matched_entities max_chunks rest results used
    else
      let rec_ := serialize_chunk_result row (max 0.16 score) "keyword_fallback"
        matched_entities 0 keyword_overlap 0 anchor_overlap
      let rec2 := { rec_ with anchor_overlap := round6 anchor_overlap
                              query_focus_overlap := round6 keyword_overlap }
      fallbackCollect matched_entities max_chunks rest (results ++ [rec2])
        (used ++ [row.chunk_id])

/-- `_fulltext_keyword_fallback_search` (kb_service.py): a last-resort
substring scan over anchor ∪ keyword terms, rescored by the keyword
formula, floored at score 0.16, deduplicated and capped. -/
def fulltext_keyword_fallback_search (O : QueryOracle) (rows : List MRow)
    (library_ids : List String) (top_k : Nat)
    (keyword_queries keyword_term_set anchor_term_set : List String)
    (count_intent roster_intent : Bool) (matched_entities : List String)
    (cfg : RuntimeConfig) : List HitRec :=
  let keyword_fallback_max_chunks := max 20 (min cfg.keyword_fallback_max_chunks 800)
  let keyword_fallback_min_score := max 0 (min cfg.keyword_fallback_min_score 1.5)
  let keyword_fallback_scan_limit := max 200 (min cfg.keyword_fallback_scan_limit 20000)
  let search_terms := merge_entities_preserve_order anchor_term_set keyword_queries 32
  let filter_terms := search_terms.filter fun term => 2 ≤ (normalize_entity term).length
  if filter_terms = [] then []
  else
    let scan_cap := min
      (max (top_k * 30) (max 220 (max (if count_intent then 720 else 0)
        (if roster_intent then 1200 else 0))))
      keyword_fallback_scan_limit
    let rows_scanned := (rows.filter fun r =>
      library_ids.contains r.library_id
        && filter_terms.any (fun term => strContainsCI r.content term)).take scan_cap
    let rescored := rows_scanned.filterMap fun r =>
      let keyword_overlap := term_hit_ratio r.content keyword_term_set
      let anchor_overlap := term_hit_ratio r.content anchor_term_set
      if anchor_term_set ≠ [] && anchor_overlap = 0 && keyword_overlap < 0.25 then none
      else
        let score := score_keyword_candidate O r.content keyword_term_set anchor_term_set
          count_intent roster_intent
        if score < keyword_fallback_min_score then none
        else some (score, r, keyword_overlap, anchor_overlap)
    let rescored_sorted := stableSortBy (fun a b => decide (b.1 ≤ a.1)) rescored
    fallbackCollect matched_entities keyword_fallback_max_chunks rescored_sorted [] []

/-- `_merge_retrieval_results`: primary hits followed by fallback hits,
deduplicated by chunk id, capped at `max(5, min(max_items, 800))`. -/
def merge_retrieval_results (primary secondary : List HitRec) (max_items : Nat) : List HitRec :=
  let max_items := max 5 (min max_items 800)
  ((primary ++ secondary).foldl (fun acc item =>
    if item.chunk_id = "" || acc.2.contains item.chunk_id || max_items ≤ acc.1.length then acc
    else (acc.1 ++ [item], acc.2 ++ [item.chunk_id]))
    (([], []) : List HitRec × List String)).1

/-! ### `hybrid_search` (kb_service.py)

The pipeline from the `library_ids` guard through term derivation, the
three channel queries, fusion, refinement, gating, relaxation and keyword
fallback.  The query-analysis values produced by external collaborators
(jieba, embeddings, regexes, graph scans) enter through the `QueryOracle`;
everything else follows the source line by line. -/

/-- The candidate-pool sizing of `hybrid_search` (lines 460–474):
`summary_mode`, `effective_top_k`, and the clamped channel multipliers
(non-summary queries cap them at 3/3/4). -/
structure EngineParams where
  summary_mode : Bool
  effective_top_k : Nat
  vector_multiplier : Nat
  keyword_multiplier : Nat
  graph_multiplier : Nat
  deriving Repr

def engineParams (O : QueryOracle) (top_k : Nat) (cfg : RuntimeConfig) : EngineParams :=
  let summary_mode := cfg.summary_intent_enabled && O.isGlobalSummary
  let summary_expand_factor := max 1 (min cfg.summary_expand_factor 8)
  let summary_min_chunks := max 4 (min cfg.summary_min_chunks 24)
  let effective_top_k0 := max top_k (if summary_mode then summary_min_chunks else top_k)
  let effective_top_k :=
    if summary_mode then max effective_top_k0 (top_k * summary_expand_factor)
    else effective_top_k0
  let vector_multiplier0 := max 2 (min cfg.vector_candidate_multiplier 20)
  let keyword_multiplier0 := max 2 (min cfg.keyword_candidate_multiplier 20)
  let graph_multiplier0 := max 2 (min cfg.graph_candidate_multiplier 24)
  { summary_mode := summary_mode
    effective_top_k := effective_top_k
    vector_multiplier := if summary_mode then vector_multiplier0 else min vector_multiplier0 3
    keyword_multiplier := if summary_mode then keyword_multiplier0 else min keyword_multiplier0 3
    graph_multiplier := if summary_mode then graph_multiplier0 else min graph_multiplier0 4 }

/-- The derived search-term sets of `hybrid_search` after the roster-mining
branch (lines 524–575 and 645–669): keyword queries (with the count∧roster
seed terms), the normalized keyword/anchor/focus term sets, and the graph
expansion terms. -/
structure TermSets where
  keyword_queries : List String
  keyword_term_set : List String
  anchor_term_set : List String
  query_focus_terms : List String
  graph_terms : List String
  deriving Repr

/-- Term sets as of line 575, before the roster branch. -/
def preRosterTerms (O : QueryOracle) : TermSets :=
  let count_intent := O.countIntent
  let roster_intent := O.rosterIntent
  let keyword_queries0 := filter_keyword_queries O.rawQueryTerms 64
  let keyword_queries1 :=
    if count_intent && roster_intent then
      merge_entities_preserve_order keyword_queries0
        ["师徒", "徒弟", "成员", "团队", "同伴", "同行", "取经"] 64
    else keyword_queries0
  let query_focus_terms := normalize_search_terms
    ((O.queryTokens.map trimStr).filter fun t =>
      t ≠ "" && 2 ≤ (normalize_entity t).length) 8
  { keyword_queries := keyword_queries1
    keyword_term_set := normalize_search_terms keyword_queries1 28
    anchor_term_set := build_anchor_terms O.queryEntities O.contextEntities
      query_focus_terms (if roster_intent then 16 else 12)
    query_focus_terms := query_focus_terms
    graph_terms := O.graphTermsBase }

/-- Whether the roster branch re-derives the term sets (lines 645–669). -/
def rosterActive (O : QueryOracle) : Bool :=
  O.rosterIntent && O.rosterMinedTerms ≠ []

/-- Term sets after the roster branch (lines 658–669). -/
def rosterTerms (O : QueryOracle) (cfg : RuntimeConfig) : TermSets :=
  let pre := preRosterTerms O
  if rosterActive O then
    let keyword_queries := merge_entities_preserve_order pre.keyword_queries
      O.rosterMinedTerms 48
    { keyword_queries := keyword_queries
      keyword_term_set := normalize_search_terms keyword_queries 48
      anchor_term_set := normalize_search_terms
        (merge_entities_preserve_order pre.anchor_term_set O.rosterMinedTerms 16) 16
      query_focus_terms := pre.query_focus_terms
      graph_terms := merge_entities_preserve_order O.graphTermsBase
        O.rosterMinedTerms (cfg.rag_graph_max_terms * 3) }
  else pre

/-- The vector channel (lines 577–585): the library-filtered chunk rows
ordered by cosine distance, truncated to the vector candidate pool size. -/
def vectorChannel (rows : List MRow) (library_ids : List String) (O : QueryOracle)
    (top_k : Nat) (P : EngineParams) : List MRow :=
  (stableSortBy (fun a b => decide (O.vectorDistance a ≤ O.vectorDistance b))
    (rows.filter fun r => library_ids.contains r.library_id)).take
    (max (top_k * P.vector_multiplier) (max (P.effective_top_k * 2) 16))

/-- The keyword channel before the roster branch (lines 587–618): substring
OR-scan, local rescoring, keep the best `keep_size`. -/
def keywordChannelBase (rows : List MRow) (library_ids : List String) (O : QueryOracle)
    (top_k : Nat) (P : EngineParams) : List MRow :=
  let pre := preRosterTerms O
  if pre.keyword_queries = [] then []
  else
    let keyword_scan_cap0 := max (top_k * P.keyword_multiplier * 6)
      (max (P.effective_top_k * 6) 120)
    let keyword_scan_cap1 :=
      if O.countIntent then max keyword_scan_cap0 360 else keyword_scan_cap0
    let keyword_scan_cap :=
      if O.rosterIntent then max keyword_scan_cap1 900 else keyword_scan_cap1
    let keyword_raw_candidates := (rows.filter fun r =>
      library_ids.contains r.library_id
        && pre.keyword_queries.any fun term => strContainsCI r.content term).take
      (min keyword_scan_cap 5000)
    let rescored := keyword_raw_candidates.filterMap fun r =>
      let local_score := score_keyword_candidate O r.content pre.keyword_term_set
        pre.anchor_term_set O.countIntent O.rosterIntent
      if local_score ≤ 0 then none else some (local_score, r)
    let keep_size := max (top_k * P.keyword_multiplier) (max (P.effective_top_k * 2) 20)
    ((stableSortBy (fun a b => decide (b.1 ≤ a.1)) rescored).take keep_size).map Prod.snd

/-- The keyword channel after the roster branch (lines 671–700): an extra
scan over the mined roster terms, merged after the base keyword candidates
with chunk-id deduplication. -/
def keywordChannel (rows : List MRow) (library_ids : List String) (O : QueryOracle)
    (top_k : Nat) (P : EngineParams) (cfg : RuntimeConfig) : List MRow :=
  let base := keywordChannelBase rows library_ids O top_k P
  if rosterActive O then
    let T := rosterTerms O cfg
    let roster_filter_terms := O.rosterMinedTerms.take 10
    if roster_filter_terms = [] then base
    else
      let roster_raw_candidates := (rows.filter fun r =>
        library_ids.contains r.library_id
          && roster_filter_terms.any fun term => strContainsCI r.content term).take
        (max (top_k * P.keyword_multiplier * 6) (max (P.effective_top_k * 6) 240))
      let roster_rescored := roster_raw_candidates.filterMap fun r =>
        let local_score := score_keyword_candidate O r.content T.keyword_term_set
          T.anchor_term_set O.countIntent true
        if local_score ≤ 0 then none else some (local_score, r)
      let roster_top := ((stableSortBy (fun a b => decide (b.1 ≤ a.1)) roster_rescored).take
        (max (P.effective_top_k * 5) 40)).map Prod.snd
      (roster_top.foldl (fun acc r =>
        if acc.2.contains r.chunk_id then acc
        else (acc.1 ++ [r], acc.2 ++ [r.chunk_id]))
        (base, base.map (·.chunk_id))).1
  else base

/-- The graph channel (lines 702–715): substring OR-scan over the
de-duplicated graph expansion terms. -/
def graphChannel (rows : List MRow) (library_ids : List String) (O : QueryOracle)
    (top_k : Nat) (P : EngineParams) (cfg : RuntimeConfig) : List MRow :=
  let T := rosterTerms O cfg
  let all_search_terms := dedupFirst T.graph_terms
  let graph_filter_terms := all_search_terms.filter fun term =>
    term ≠ "" && 2 ≤ (trimStr term).length
  if graph_filter_terms = [] then []
  else
    (rows.filter fun r =>
      library_ids.contains r.library_id
        && graph_filter_terms.any fun term => strContainsCI r.content term).take
      (max (top_k * P.graph_multiplier) (max (P.effective_top_k * 3) 20))

/-- The vector fusion loop (lines 719–732). -/
def fuseVector (O : QueryOracle) (vector_candidates : List MRow) : HitMap :=
  vector_candidates.enum.foldl (fun m rankRow =>
    let scored := score_vector_candidate (some (O.vectorDistance rankRow.2)) rankRow.1
    hitMapSet m rankRow.2.chunk_id
      (serialize_chunk_result rankRow.2 scored.1 "vector" O.graphMatches
        scored.2 0 0 0)) []

/-- The keyword fusion loop (lines 734–756). -/
def fuseKeyword (O : QueryOracle) (T : TermSets) (keyword_candidates : List MRow)
    (m0 : HitMap) : HitMap :=
  keyword_candidates.enum.foldl (fun m rankRow =>
    let keyword_overlap := term_hit_ratio rankRow.2.content T.keyword_term_set
    let anchor_overlap := term_hit_ratio rankRow.2.content T.anchor_term_set
    let score := score_sparse_candidate rankRow.1 keyword_overlap anchor_overlap 1
    hitMapUpsert m rankRow.2.chunk_id
      (fun old => { old with
        score := score_merge old.score score
        source := summarize_graph_sources [old.source, "keyword"]
        keyword_overlap := max old.keyword_overlap keyword_overlap
        anchor_overlap := max old.anchor_overlap anchor_overlap })
      (let base := serialize_chunk_result rankRow.2 score "keyword" O.graphMatches
        0 keyword_overlap 0 anchor_overlap
       { base with anchor_overlap := round6 anchor_overlap })) m0

/-- The graph fusion loop (lines 758–788), including the graph-only
penalty. -/
def fuseGraph (O : QueryOracle) (T : TermSets) (cfg : RuntimeConfig)
    (graph_candidates : List MRow) (m0 : HitMap) : HitMap :=
  let graph_term_set := normalize_search_terms (dedupFirst T.graph_terms) 28
  let matched_entity_terms := normalize_search_terms
    (merge_entities_preserve_order O.graphMatches O.contextEntities 16) 28
  graph_candidates.enum.foldl (fun m rankRow =>
    let graph_overlap := term_hit_ratio rankRow.2.content graph_term_set
    let entity_overlap := term_hit_ratio rankRow.2.content matched_entity_terms
    let base_keyword_overlap := term_hit_ratio rankRow.2.content T.keyword_term_set
    let score0 := score_sparse_candidate rankRow.1 graph_overlap entity_overlap
      cfg.graph_channel_weight
    let score := if base_keyword_overlap = 0 && entity_overlap = 0 then
        round6 (score0 * cfg.graph_only_penalty)
      else score0
    hitMapUpsert m rankRow.2.chunk_id
      (fun old => { old with
        score := score_merge old.score score
        source := summarize_graph_sources [old.source, "graph"]
        graph_overlap := max old.graph_overlap graph_overlap
        entity_overlap := max old.entity_overlap entity_overlap })
      (serialize_chunk_result rankRow.2 score "graph" O.graphMatches
        0 0 graph_overlap entity_overlap)) m0

/-- The post-fusion refinement of a single record (lines 790–813):
focus/anchor overlap bonuses, count/roster boosts and the anchor-miss
penalty. -/
def refineItem (O : QueryOracle) (T : TermSets) (summary_mode : Bool) (item : HitRec) :
    HitRec :=
  let focus_overlap := term_hit_ratio item.snippet T.query_focus_terms
  let anchor_overlap := term_hit_ratio item.snippet T.anchor_term_set
  let count_boost : ℚ := if O.countIntent && O.countSignal item.snippet then 0.08 else 0
  let roster_boost : ℚ :=
    if O.rosterIntent && O.rosterSignal item.snippet T.anchor_term_set then 0.10 else 0
  let item1 := { item with
    query_focus_overlap := round6 focus_overlap
    anchor_overlap := round6 (max item.anchor_overlap anchor_overlap) }
  let refined_incr :=
    round6 (0.20 * focus_overlap + 0.24 * anchor_overlap + count_boost + roster_boost)
  let item2 :=
    if 0 < focus_overlap || 0 < anchor_overlap || 0 < count_boost || 0 < roster_boost then
      { item1 with score := score_merge item1.score refined_incr }
    else item1
  if T.anchor_term_set ≠ [] && !summary_mode && item2.anchor_overlap = 0 then
    { item2 with score := round6 (item2.score * 0.72) }
  else item2

/-- The fused, refined and sorted candidate list of `hybrid_search`
(lines 577–815). -/
def hybridOrdered (rows : List MRow) (library_ids : List String) (O : QueryOracle)
    (top_k : Nat) (cfg : RuntimeConfig) : List HitRec :=
  let P := engineParams O top_k cfg
  let T := rosterTerms O cfg
  let merged1 := fuseVector O (vectorChannel rows library_ids O top_k P)
  let merged2 := fuseKeyword O T (keywordChannel rows library_ids O top_k P cfg) merged1
  let merged3 := fuseGraph O T cfg (graphChannel rows library_ids O top_k P cfg) merged2
  let refined := (hitMapValues merged3).map (refineItem O T P.summary_mode)
  stableSortBy (fun a b => decide (b.score ≤ a.score)) refined

def hybridSearch (rows : List MRow) (library_ids : List String) (O : QueryOracle)
    (top_k : Nat) (cfg : RuntimeConfig) : List HitRec :=
  if library_ids = [] then []
  else
    let P := engineParams O top_k cfg
    let T := rosterTerms O cfg
    let count_intent := O.countIntent
    let roster_intent := O.rosterIntent
    let ordered := hybridOrdered rows library_ids O top_k cfg
    let hits := finalize_retrieval_hits O ordered P.effective_top_k cfg P.summary_mode false
      count_intent roster_intent
    if hits ≠ [] then
      if should_expand_to_keyword_fallback O hits cfg T.anchor_term_set
          count_intent roster_intent P.summary_mode then
        let fallback_hits := fulltext_keyword_fallback_search O rows library_ids
          P.effective_top_k T.keyword_queries T.keyword_term_set T.anchor_term_set
          count_intent roster_intent O.graphMatches cfg
        if fallback_hits ≠ [] then
          merge_retrieval_results hits fallback_hits cfg.keyword_fallback_max_chunks
        else hits
      else hits
    else if !cfg.fallback_relax_enabled then []
    else
      let relaxed_runtime := build_relaxed_runtime_config cfg
      let relaxed_hits := finalize_retrieval_hits O ordered P.effective_top_k relaxed_runtime
        P.summary_mode true count_intent roster_intent
      if relaxed_hits ≠ [] then relaxed_hits
      else fulltext_keyword_fallback_search O rows library_ids P.effective_top_k
        T.keyword_queries T.keyword_term_set T.anchor_term_set count_intent roster_intent
        O.graphMatches cfg

/-! ## Theorems -/

/-! ### Embedding-dimension normalization -/

lemma normalize_vector_dim_length (v : List ℚ) (D : Nat) :
    (normalize_vector_dim v D).length = D := by
  unfold normalize_vector_dim
  simp only []
  split
  · omega
  · split
    · simp only [List.length_take]
      omega
    · simp only [List.length_append, List.length_replicate]
      omega

/-- C6: `normalize_vector_dim(v, D)` always returns a vector of length
exactly `D` (zero-padding short vectors, truncating long ones, as on the
two concrete examples), and it is idempotent. -/
theorem normalize_vector_dim_spec :
    (∀ (v : List ℚ) (D : Nat),
      (normalize_vector_dim v D).length = D ∧
      normalize_vector_dim (normalize_vector_dim v D) D = normalize_vector_dim v D) ∧
    normalize_vector_dim [1, 2] 4 = [1, 2, 0, 0] ∧
    normalize_vector_dim [1, 2, 3] 2 = [1, 2] := by
  refine ⟨fun v D => ⟨normalize_vector_dim_length v D, ?_⟩, ?_, ?_⟩
  · rw [normalize_vector_dim]
    simp [normalize_vector_dim_length v D]
  · norm_num [normalize_vector_dim, List.replicate]
  · norm_num [normalize_vector_dim]

/-! ### Token estimation -/

/-- C7 (counterexample): the source `_estimate_text_tokens` returns `0`,
not at least `1`, on the empty string (`if not text: return 0`). -/
theorem estimate_text_tokens_empty_not_pos :
    ¬ (1 ≤ estimate_text_tokens "") := by
  norm_num [estimate_text_tokens]

/-- C7 (amended): `_estimate_text_tokens` returns `0` for the empty string,
and for every non-empty string it returns the truncation of
`ascii_chars/4 + non_ascii_chars/1.6` floored at a minimum of `1`. -/
theorem estimate_text_tokens_spec :
    estimate_text_tokens "" = 0 ∧
    ∀ s : String, s ≠ "" → 1 ≤ estimate_text_tokens s := by
  constructor
  · simp [estimate_text_tokens]
  · intro s hs
    unfold estimate_text_tokens
    rw [if_neg hs]
    exact le_max_left _ _

/-- C7 witness: the amended minimum applies to a concrete non-empty
string. -/
theorem estimate_text_tokens_spec_witness :
    1 ≤ estimate_text_tokens "ab" :=
  estimate_text_tokens_spec.2 "ab" (by decide)

/-! ### Secret encryption round trip -/

/-- C9: `decrypt_secret (encrypt_secret s) = s` for every non-empty `s`,
for every Fernet cipher satisfying the library's round-trip contract
(decryption inverts encryption under the same key, and tokens are
non-empty) — both calls derive the same key from the same settings via
`get_fernet`. -/
theorem encrypt_decrypt_roundtrip (F : FernetCipher) (sha : String → String)
    (st : SecuritySettings)
    (hdec : ∀ k m : String, F.decrypt k (F.encrypt k m) = m)
    (htok : ∀ k m : String, F.encrypt k m ≠ "")
    (v : String) (hv : v ≠ "") :
    decrypt_secret F sha st (encrypt_secret F sha st v) = v := by
  unfold decrypt_secret encrypt_secret
  rw [if_neg hv, if_neg (htok _ _), hdec]

/-- C9 witness: the round trip on `'sk-test-123456'` under a concrete
cipher satisfying the contract. -/
theorem encrypt_decrypt_roundtrip_witness :
    decrypt_secret ⟨fun _ m => ⟨'.' :: m.data⟩, fun _ c => ⟨c.data.tail⟩⟩
      (fun s => s) ⟨none, "k"⟩
      (encrypt_secret ⟨fun _ m => ⟨'.' :: m.data⟩, fun _ c => ⟨c.data.tail⟩⟩
        (fun s => s) ⟨none, "k"⟩ "sk-test-123456") = "sk-test-123456" :=
  encrypt_decrypt_roundtrip _ _ _
    (fun _ m => by cases m; rfl)
    (fun _ m h => by
      have := congrArg String.data h
      simp at this)
    "sk-test-123456" (by decide)

/-! ### Empty library list short-circuit -/

/-- C1: with an empty `library_ids` list, `hybrid_search` returns `[]`
without consulting any channel, and on that result the reply orchestrator's
no-hit condition `available_library_ids and not retrieved` is false, so the
no-hit guidance message is not emitted. -/
theorem hybrid_search_empty_libraries (rows : List MRow) (O : QueryOracle)
    (top_k : Nat) (cfg : RuntimeConfig) :
    hybridSearch rows [] O top_k cfg = [] ∧
    emitsNoHitMessage [] (hybridSearch rows [] O top_k cfg) = false := by
  constructor
  · simp [hybridSearch]
  · simp [emitsNoHitMessage]

/-! ### Relation canonical ordering -/

lemma pyCharsLt_irrefl (l : List Char) : pyCharsLt l l = false := by
  induction l with
  | nil => rfl
  | cons c rest ih => simp [pyCharsLt, ih]

lemma pyStrLt_irrefl (s : String) : pyStrLt s s = false :=
  pyCharsLt_irrefl s.data

lemma pyCharsLt_asymm : ∀ la lb : List Char,
    pyCharsLt la lb = true → pyCharsLt lb la = false := by
  intro la
  induction la with
  | nil => intro lb h; cases lb <;> rfl
  | cons c rest ih =>
    intro lb h
    cases lb with
    | nil => simp [pyCharsLt] at h
    | cons d ds =>
      simp only [pyCharsLt] at h ⊢
      rcases Nat.lt_trichotomy c.toNat d.toNat with hlt | heq | hgt
      · simp [hlt, Nat.lt_asymm hlt]
      · simp only [heq, lt_irrefl, if_false] at h ⊢
        exact ih ds h
      · simp [hgt, Nat.lt_asymm hgt] at h

lemma pyStrLe_of_lt {a b : String} (h : pyStrLt a b = true) : pyStrLe a b = true := by
  unfold pyStrLe pyStrLt at *
  simp [pyCharsLt_asymm _ _ h]

lemma pyStrLt_ne {a b : String} (h : pyStrLt a b = true) : a ≠ b := by
  intro heq
  rw [heq, pyStrLt_irrefl] at h
  cases h

lemma pyStrLe_of_not_lt {a b : String} (h : ¬ pyStrLt b a = true) : pyStrLe a b = true := by
  unfold pyStrLe
  simp only [Bool.not_eq_true] at h
  simp [h]

/-- The ordering invariant of a single canonicalized pair. -/
lemma canonPair_spec (s t p q : String) (h : canonPair s t = some (p, q)) :
    pyStrLe (normalize_entity p) (normalize_entity q) = true ∧
    normalize_entity p ≠ normalize_entity q := by
  unfold canonPair at h
  split at h
  · cases h
  · split at h
    · rename_i hne hlt
      cases h
      exact ⟨pyStrLe_of_lt hlt, pyStrLt_ne hlt⟩
    · rename_i hne hnlt
      cases h
      exact ⟨pyStrLe_of_not_lt (by simpa using hnlt), hne⟩

/-- C5: every relation tuple produced by `extract_relations_from_text`
carries its endpoints with the lexicographically smaller normalized name
first and distinct normalized names, and consequently every relation key
that `rebuild_library_graph` derives from the chunk contents (and hence
every inserted relation) satisfies `source ≤ target` and `source ≠ target`
on normalized names — for every entity-extraction oracle. -/
theorem extract_relations_canonical :
    (∀ (extractEntities : String → Nat → List String) (text : String)
        (r : String × String × String × String),
        r ∈ extract_relations_from_text extractEntities text →
        pyStrLe (normalize_entity r.1) (normalize_entity r.2.1) = true ∧
          normalize_entity r.1 ≠ normalize_entity r.2.1) ∧
    (∀ (extractEntities : String → Nat → List String) (chunkContents : List String)
        (key : String × String × String),
        key ∈ rebuildRelationKeyCandidates extractEntities chunkContents →
        pyStrLe key.1 key.2.1 = true ∧ key.1 ≠ key.2.1) := by
  have hmain : ∀ (f : String → Nat → List String) (text : String)
      (r : String × String × String × String),
      r ∈ extract_relations_from_text f text →
      pyStrLe (normalize_entity r.1) (normalize_entity r.2.1) = true ∧
        normalize_entity r.1 ≠ normalize_entity r.2.1 := by
    intro f text r hr
    unfold extract_relations_from_text at hr
    rw [List.mem_flatMap] at hr
    obtain ⟨sentRaw, _, hr⟩ := hr
    simp only [] at hr
    split at hr
    · cases hr
    · split at hr
      · cases hr
      · rw [List.mem_filterMap] at hr
        obtain ⟨st, _, hsome⟩ := hr
        rcases hcp : canonPair st.1 st.2 with _ | ⟨p, q⟩
        · rw [hcp] at hsome
          cases hsome
        · rw [hcp] at hsome
          cases hsome
          exact canonPair_spec st.1 st.2 p q hcp
  refine ⟨hmain, ?_⟩
  intro f chunkContents key hkey
  unfold rebuildRelationKeyCandidates at hkey
  rw [List.mem_flatMap] at hkey
  obtain ⟨content, _, hkey⟩ := hkey
  rw [List.mem_map] at hkey
  obtain ⟨r, hr, hkeyEq⟩ := hkey
  have := hmain f content r hr
  cases hkeyEq
  exact this

/-- C5 witness: a concrete extraction oracle and text on which the
canonicalized pair appears swapped into order. -/
theorem extract_relations_canonical_witness :
    pyStrLe (normalize_entity "a") (normalize_entity "b") = true ∧
      normalize_entity "a" ≠ normalize_entity "b" :=
  extract_relations_canonical.1 (fun _ _ => ["b", "a"]) "xy"
    ("a", "b", "co_occurs", "xy") (by decide)

/-! ### Acceptance-gate monotonicity in `rag_min_top1_score` -/

/-- C3: lowering `rag_min_top1_score` (all other profile fields unchanged)
never turns an accepted candidate window into a rejected one: every
comparison against the top-1 threshold only becomes easier. -/
theorem is_retrieval_hit_top1_monotone (candidates : List HitRec)
    (cfg : RuntimeConfig) (t' : ℚ) (hle : t' ≤ cfg.rag_min_top1_score)
    (hacc : is_retrieval_hit candidates cfg = true) :
    is_retrieval_hit candidates { cfg with rag_min_top1_score := t' } = true := by
  cases candidates with
  | nil => simp [is_retrieval_hit] at hacc
  | cons top rest =>
    simp only [is_retrieval_hit, Bool.and_eq_true, decide_eq_true_eq] at hacc ⊢
    split_ifs at hacc ⊢ with h1 h2 h3 h4 h5 h6 <;>
      first
        | rfl
        | cases hacc
        | (exfalso; push_neg at *; linarith)
        | (simp only [Bool.and_eq_true, decide_eq_true_eq] at hacc ⊢; constructor
           · exact hacc.1
           · linarith [hacc.2])
        | skip
    all_goals
      first
        | exact absurd (lt_of_lt_of_le h1 hle) h2
        | (exfalso
           obtain ⟨hb1, hb2⟩ := h6
           exact ‹¬ (_ < cfg.rag_min_support_count ∧
             top.score < cfg.rag_min_top1_score + 0.15)› ⟨hb1, by linarith⟩)

/-! ### Chunking: `_split_text` -/

lemma splitTextGo_nil (l : List Char) (start : Nat) (h : ¬ start < l.length) :
    splitTextGo l start = [] := by
  unfold splitTextGo
  simp [h]

lemma take_min_eq (l : List Char) (start : Nat) (h : start < l.length) :
    (l.drop start).take (min (start + 500) l.length - start) = (l.drop start).take 500 := by
  rcases le_or_lt l.length (start + 500) with hle | hlt
  · rw [min_eq_right hle]
    rw [List.take_of_length_le, List.take_of_length_le] <;> simp [List.length_drop] <;> omega
  · rw [min_eq_left (le_of_lt hlt)]
    congr 1
    omega

lemma splitTextGo_cons (l : List Char) (start : Nat) (h : start < l.length) :
    splitTextGo l start = (l.drop start).take 500 ::
      (if start + 500 < l.length then splitTextGo l (start + 420) else []) := by
  rw [splitTextGo]
  rw [dif_pos h]
  rcases lt_or_le (start + 500) l.length with hlt | hle
  · rw [if_neg (by omega : ¬ l.length ≤ min (start + 500) l.length)]
    rw [if_pos hlt, take_min_eq l start h]
    congr 1
    congr 1
    omega
  · rw [if_pos (by omega : l.length ≤ min (start + 500) l.length)]
    rw [if_neg (by omega : ¬ start + 500 < l.length), take_min_eq l start h]

lemma splitTextGo_ne_nil (l : List Char) (start : Nat) (h : start < l.length) :
    splitTextGo l start ≠ [] := by
  rw [splitTextGo_cons l start h]
  simp

lemma splitTextGo_getElemOpt (l : List Char) : ∀ n start, l.length - start ≤ n →
    ∀ i, i < (splitTextGo l start).length →
    (splitTextGo l start)[i]? = some ((l.drop (start + 420 * i)).take 500) := by
  intro n
  induction n with
  | zero =>
    intro start hn i hi
    rw [splitTextGo_nil l start (by omega)] at hi
    simp at hi
  | succ n ih =>
    intro start hn i hi
    by_cases h : start < l.length
    · rw [splitTextGo_cons l start h] at hi ⊢
      cases i with
      | zero => simp
      | succ i =>
        simp only [List.getElem?_cons_succ]
        by_cases h5 : start + 500 < l.length
        · rw [if_pos h5] at hi ⊢
          simp only [List.length_cons] at hi
          rw [ih (start + 420) (by omega) i (by omega)]
          congr 3
          ring
        · rw [if_neg h5] at hi
          simp at hi
    · rw [splitTextGo_nil l start h] at hi
      simp at hi

lemma splitTextGo_getElem (l : List Char) (n start : Nat) (hn : l.length - start ≤ n)
    (i : Nat) (hi : i < (splitTextGo l start).length) :
    (splitTextGo l start)[i] = (l.drop (start + 420 * i)).take 500 := by
  have h1 := splitTextGo_getElemOpt l n start hn i hi
  rw [List.getElem?_eq_getElem hi] at h1
  exact Option.some_injective _ h1

lemma splitTextGo_last_bound (l : List Char) : ∀ n start, l.length - start ≤ n →
    start < l.length →
    l.length ≤ start + 420 * ((splitTextGo l start).length - 1) + 500 := by
  intro n
  induction n with
  | zero => intro start hn h; omega
  | succ n ih =>
    intro start hn h
    rw [splitTextGo_cons l start h]
    by_cases h5 : start + 500 < l.length
    · rw [if_pos h5]
      have := ih (start + 420) (by omega) (by omega)
      have hne := splitTextGo_ne_nil l (start + 420) (by omega)
      have hlen : 1 ≤ (splitTextGo l (start + 420)).length := by
        cases hgo : splitTextGo l (start + 420) with
        | nil => exact absurd hgo hne
        | cons a as => simp
      simp only [List.length_cons]
      omega
    · rw [if_neg h5]
      simp only [List.length_cons, List.length_nil]
      omega

lemma splitTextGo_chunk_full (l : List Char) : ∀ n start, l.length - start ≤ n →
    ∀ i, i + 1 < (splitTextGo l start).length → start + 420 * i + 500 < l.length := by
  intro n
  induction n with
  | zero =>
    intro start hn i hi
    by_cases h : start < l.length
    · rw [splitTextGo_cons l start h] at hi
      omega
    · rw [splitTextGo_nil l start h] at hi
      simp at hi
  | succ n ih =>
    intro start hn i hi
    by_cases h : start < l.length
    · rw [splitTextGo_cons l start h] at hi
      by_cases h5 : start + 500 < l.length
      · rw [if_pos h5] at hi
        cases i with
        | zero => omega
        | succ i =>
          simp only [List.length_cons] at hi
          have := ih (start + 420) (by omega) i (by omega)
          omega
      · rw [if_neg h5] at hi
        simp at hi
    · rw [splitTextGo_nil l start h] at hi
      simp at hi

/-- C8: `_split_text` with the default `chunk_size = 500`, `overlap = 80`
is total (each continuing step advances the window start by 420), returns
`[]` exactly on the empty text, and otherwise produces non-empty chunks of
length at most 500: chunk `i` is `text[420·i : 420·i + 500]`, the windows
jointly cover every character position, and whenever a chunk has a
successor it is a full 500-character window (so consecutive windows, whose
starts differ by 420, overlap in exactly 80 characters). -/
theorem split_text_spec (s : String) :
    (split_text s = [] ↔ s = "") ∧
    (∀ c ∈ split_text s, c ≠ [] ∧ c.length ≤ 500) ∧
    (∀ i (hi : i < (split_text s).length),
      (split_text s)[i] = (s.data.drop (420 * i)).take 500) ∧
    (∀ j < s.length, ∃ i < (split_text s).length, 420 * i ≤ j ∧ j < 420 * i + 500) ∧
    (∀ i, i + 1 < (split_text s).length →
      420 * i + 500 ≤ s.length ∧
      ∀ (hi : i < (split_text s).length), ((split_text s)[i]).length = 500) := by
  have hget : ∀ i (hi : i < (split_text s).length),
      (split_text s)[i] = (s.data.drop (420 * i)).take 500 := by
    intro i hi
    have := splitTextGo_getElem s.data s.data.length 0 (by omega) i hi
    simpa using this
  have hfull : ∀ i, i + 1 < (split_text s).length → 420 * i + 500 ≤ s.length := by
    intro i hi
    have := splitTextGo_chunk_full s.data s.data.length 0 (by omega) i hi
    have hsl : s.length = s.data.length := rfl
    omega
  refine ⟨?_, ?_, hget, ?_, ?_⟩
  · constructor
    · intro h
      by_contra hne
      have hlen : 0 < s.data.length := by
        cases hs : s.data with
        | nil =>
          exact absurd (by cases s with | mk d => rw [show d = [] from hs]) hne
        | cons a as => simp [hs]
      exact splitTextGo_ne_nil s.data 0 hlen h
    · intro h
      subst h
      rw [split_text]
      exact splitTextGo_nil _ 0 (by decide)
  · intro c hc
    obtain ⟨i, hi, hceq⟩ := List.mem_iff_getElem.mp hc
    rw [hget i hi] at hceq
    subst hceq
    constructor
    · have h0 : 0 < s.data.length := by
        by_contra hz
        rw [split_text, splitTextGo_nil s.data 0 (by omega)] at hi
        simp at hi
      have hstart : 420 * i < s.data.length := by
        rcases Nat.eq_zero_or_pos i with hz | hp
        · omega
        · have := splitTextGo_chunk_full s.data s.data.length 0 (by omega) (i - 1)
            (by rw [split_text] at hi; omega)
          omega
      simp only [ne_eq, List.take_eq_nil_iff, List.drop_eq_nil_iff, not_or]
      constructor
      · omega
      · simp only [List.drop_eq_nil_iff] at *
        omega
    · simpa using List.length_take_le 500 _
  · intro j hj
    have h0 : 0 < s.data.length := by
      have : j < s.data.length := hj
      omega
    have hne := splitTextGo_ne_nil s.data 0 h0
    have hm : 1 ≤ (split_text s).length := by
      rw [split_text]
      cases hgo : splitTextGo s.data 0 with
      | nil => exact absurd hgo hne
      | cons a as => simp
    have hbound := splitTextGo_last_bound s.data s.data.length 0 (by omega) h0
    have hdm := Nat.div_add_mod j 420
    have hmod : j % 420 < 420 := Nat.mod_lt j (by norm_num)
    refine ⟨min (j / 420) ((split_text s).length - 1), ?_, ?_, ?_⟩
    · rw [split_text] at *
      omega
    · have h1 : 420 * (j / 420) ≤ j := by omega
      omega
    · rw [split_text] at *
      have hjlen : j < s.data.length := hj
      omega
  · intro i hi
    refine ⟨hfull i hi, ?_⟩
    intro hilt
    rw [hget i hilt]
    have hj := hfull i hi
    have : s.length = s.data.length := rfl
    simp only [List.length_take, List.length_drop]
    omega

/-- C8 witness: the single-chunk split of a concrete short text satisfies
the per-chunk bounds. -/
theorem split_text_spec_witness :
    "ab".data ≠ [] ∧ "ab".data.length ≤ 500 := by
  have hmem : "ab".data ∈ split_text "ab" := by
    rw [split_text, splitTextGo_cons _ _ (by decide)]
    decide
  exact (split_text_spec "ab").2.1 _ hmem

/-- The hard-coded default runtime configuration of
`build_runtime_retrieval_config` (retrieval_profile_service.py), used when
no profile overrides are given. -/
def defaultRuntimeConfig : RuntimeConfig where
  rag_min_top1_score := 0.30
  rag_min_support_score := 0.18
  rag_min_support_count := 2
  rag_min_item_score := 0.10
  rag_graph_max_terms := 12
  graph_channel_weight := 0.65
  graph_only_penalty := 0.55
  vector_semantic_min := 0.12
  alias_intent_enabled := true
  alias_mining_max_terms := 8
  co_reference_enabled := true
  vector_candidate_multiplier := 3
  keyword_candidate_multiplier := 3
  graph_candidate_multiplier := 4
  fallback_relax_enabled := true
  fallback_top1_relax := 0.08
  fallback_support_relax := 0.06
  fallback_item_relax := 0.04
  summary_intent_enabled := true
  summary_expand_factor := 3
  summary_min_chunks := 8
  summary_per_file_cap := 2
  summary_min_files := 3
  keyword_fallback_expand_on_weak_hits := true
  keyword_fallback_max_chunks := 240
  keyword_fallback_min_score := 0.08
  keyword_fallback_scan_limit := 8000

/-- A concrete accepted candidate: a strong lexical hit. -/
def gateWitnessHit : HitRec where
  chunk_id := "c1"
  file_id := "f1"
  library_id := "L1"
  file_name := "doc.txt"
  snippet := "text"
  score := 1
  source := "keyword"
  matched_entities := []
  vector_similarity := 0
  keyword_overlap := 1
  graph_overlap := 0
  entity_overlap := 0
  anchor_overlap := 0
  query_focus_overlap := 0

/-- C3 witness: a window accepted at the default top-1 threshold stays
accepted after lowering the threshold to 0.2. -/
theorem is_retrieval_hit_top1_monotone_witness :
    is_retrieval_hit [gateWitnessHit]
      { defaultRuntimeConfig with rag_min_top1_score := 0.2 } = true :=
  is_retrieval_hit_top1_monotone [gateWitnessHit] defaultRuntimeConfig 0.2
    (by norm_num [defaultRuntimeConfig])
    (by norm_num [is_retrieval_hit, defaultRuntimeConfig, gateWitnessHit])

/-! ### Infrastructure lemmas for the pipeline invariants -/

lemma insertSortedBy_perm {α : Type} (le : α → α → Bool) (x : α) (l : List α) :
    (insertSortedBy le x l).Perm (x :: l) := by
  induction l with
  | nil => exact List.Perm.refl _
  | cons y ys ih =>
    unfold insertSortedBy
    split
    · exact List.Perm.refl _
    · exact (ih.cons y).trans (List.Perm.swap x y ys)

lemma stableSortBy_perm {α : Type} (le : α → α → Bool) (l : List α) :
    (stableSortBy le l).Perm l := by
  induction l with
  | nil => exact List.Perm.refl _
  | cons x xs ih =>
    exact (insertSortedBy_perm le x (stableSortBy le xs)).trans (ih.cons x)

lemma mem_stableSortBy {α : Type} {le : α → α → Bool} {l : List α} {x : α}
    (h : x ∈ stableSortBy le l) : x ∈ l :=
  (stableSortBy_perm le l).mem_iff.mp h

lemma foldl_preserve {α β : Type} {P : β → Prop} (f : β → α → β) (l : List α) (init : β)
    (hinit : P init) (hstep : ∀ b a, a ∈ l → P b → P (f b a)) : P (l.foldl f init) := by
  induction l generalizing init with
  | nil => exact hinit
  | cons a rest ih =>
    exact ih (f init a) (hstep init a (by simp) hinit)
      (fun b x hx hb => hstep b x (by simp [hx]) hb)

lemma snd_mem_of_mem_enum {α : Type} {l : List α} {p : Nat × α} (h : p ∈ l.enum) :
    p.2 ∈ l := by
  have : p.2 ∈ l.enum.map Prod.snd := List.mem_map_of_mem Prod.snd h
  rwa [List.enum_map_snd] at this

/-- Membership in the row set of a `filter`-`take` query. -/
lemma mem_filter_take {p : MRow → Bool} {rows : List MRow} {n : Nat} {r : MRow}
    (h : r ∈ (rows.filter p).take n) : r ∈ rows ∧ p r = true := by
  have := List.mem_filter.mp (List.mem_of_mem_take h)
  exact ⟨this.1, this.2⟩

/-! The library-membership invariant (claim C2). -/

/-- Every row produced by the vector channel belongs to one of the
requested libraries. -/
lemma vectorChannel_library {rows : List MRow} {library_ids : List String}
    {O : QueryOracle} {top_k : Nat} {P : EngineParams} {r : MRow}
    (h : r ∈ vectorChannel rows library_ids O top_k P) :
    library_ids.contains r.library_id = true := by
  unfold vectorChannel at h
  have h1 := mem_stableSortBy (List.mem_of_mem_take h)
  exact (List.mem_filter.mp h1).2

lemma keywordChannelBase_library {rows : List MRow} {library_ids : List String}
    {O : QueryOracle} {top_k : Nat} {P : EngineParams} {r : MRow}
    (h : r ∈ keywordChannelBase rows library_ids O top_k P) :
    library_ids.contains r.library_id = true := by
  unfold keywordChannelBase at h
  simp only [] at h
  split at h
  · cases h
  · rw [List.mem_map] at h
    obtain ⟨pair, hpair, hsnd⟩ := h
    have h1 := mem_stableSortBy (List.mem_of_mem_take hpair)
    rw [List.mem_filterMap] at h1
    obtain ⟨row, hrow, hsome⟩ := h1
    have hrr : pair.2 = row := by
      by_cases hle : score_keyword_candidate O row.content
          (preRosterTerms O).keyword_term_set (preRosterTerms O).anchor_term_set
          O.countIntent O.rosterIntent ≤ 0
      · rw [if_pos hle] at hsome
        cases hsome
      · rw [if_neg hle] at hsome
        cases hsome
        rfl
    have h2 := (mem_filter_take hrow).2
    rw [Bool.and_eq_true] at h2
    rw [← hsnd, hrr]
    exact h2.1

lemma keywordChannel_library {rows : List MRow} {library_ids : List String}
    {O : QueryOracle} {top_k : Nat} {P : EngineParams} {cfg : RuntimeConfig} {r : MRow}
    (h : r ∈ keywordChannel rows library_ids O top_k P cfg) :
    library_ids.contains r.library_id = true := by
  unfold keywordChannel at h
  simp only [] at h
  split at h
  case isFalse => exact keywordChannelBase_library h
  case isTrue =>
    split at h
    case isTrue => exact keywordChannelBase_library h
    case isFalse =>
      -- the deduplicating fold appends only rows of the roster scan
      set base := keywordChannelBase rows library_ids O top_k P with hbase
      set roster_top := ((stableSortBy (fun a b => decide (b.1 ≤ a.1))
        ((rows.filter fun row => library_ids.contains row.library_id
            && (O.rosterMinedTerms.take 10).any fun term => strContainsCI row.content term).take
          (max (top_k * P.keyword_multiplier * 6) (max (P.effective_top_k * 6) 240))
         |>.filterMap fun row =>
          let local_score := score_keyword_candidate O row.content
            (rosterTerms O cfg).keyword_term_set (rosterTerms O cfg).anchor_term_set
            O.countIntent true
          if local_score ≤ 0 then none else some (local_score, row))).take
        (max (P.effective_top_k * 5) 40)).map Prod.snd with hroster
      have hmain : ∀ x ∈ (roster_top.foldl (fun acc row =>
          if acc.2.contains row.chunk_id then acc
          else (acc.1 ++ [row], acc.2 ++ [row.chunk_id]))
          (base, base.map (·.chunk_id))).1, x ∈ base ∨ x ∈ roster_top := by
        apply foldl_preserve
          (P := fun acc : List MRow × List String => ∀ x ∈ acc.1, x ∈ base ∨ x ∈ roster_top)
        · intro x hx
          exact Or.inl hx
        · intro acc row hrow hacc x hx
          by_cases hc : acc.2.contains row.chunk_id
          · rw [if_pos hc] at hx
            exact hacc x hx
          · rw [if_neg hc] at hx
            simp only [List.mem_append, List.mem_singleton] at hx
            rcases hx with hx | hx
            · exact hacc x hx
            · exact Or.inr (hx ▸ hrow)
      rcases hmain r h with hr | hr
      · exact keywordChannelBase_library hr
      · rw [List.mem_map] at hr
        obtain ⟨pair, hpair, hsnd⟩ := hr
        have h1 := mem_stableSortBy (List.mem_of_mem_take hpair)
        rw [List.mem_filterMap] at h1
        obtain ⟨row, hrow, hsome⟩ := h1
        have hrr : pair.2 = row := by
          simp only [] at hsome
          split at hsome
          · cases hsome
          · cases hsome
            rfl
        have h2 := (mem_filter_take hrow).2
        rw [Bool.and_eq_true] at h2
        rw [← hsnd, hrr]
        exact h2.1

lemma graphChannel_library {rows : List MRow} {library_ids : List String}
    {O : QueryOracle} {top_k : Nat} {P : EngineParams} {cfg : RuntimeConfig} {r : MRow}
    (h : r ∈ graphChannel rows library_ids O top_k P cfg) :
    library_ids.contains r.library_id = true := by
  unfold graphChannel at h
  simp only [] at h
  split at h
  · cases h
  · have h2 := (mem_filter_take h).2
    rw [Bool.and_eq_true] at h2
    exact h2.1

/-! Preservation of a per-record property through the fusion dictionary. -/

lemma hitMapValues_set {P : HitRec → Prop} {m : HitMap} {k : String} {v : HitRec}
    (hm : ∀ x ∈ hitMapValues m, P x) (hv : P v) :
    ∀ x ∈ hitMapValues (hitMapSet m k v), P x := by
  intro x hx
  unfold hitMapSet at hx
  split at hx
  · unfold hitMapValues at hx
    rw [List.map_map, List.mem_map] at hx
    obtain ⟨p, hp, hpx⟩ := hx
    simp only [Function.comp] at hpx
    split at hpx
    · rw [← hpx]
      exact hv
    · rw [← hpx]
      exact hm p.2 (List.mem_map_of_mem Prod.snd hp)
  · unfold hitMapValues at hx
    rw [List.map_append, List.mem_append] at hx
    rcases hx with hx | hx
    · exact hm x hx
    · simp only [List.map_cons, List.map_nil, List.mem_singleton] at hx
      rw [hx]
      exact hv

lemma hitMapValues_upsert {P : HitRec → Prop} {m : HitMap} {k : String}
    {upd : HitRec → HitRec} {v : HitRec}
    (hm : ∀ x ∈ hitMapValues m, P x) (hupd : ∀ x, P x → P (upd x)) (hv : P v) :
    ∀ x ∈ hitMapValues (hitMapUpsert m k upd v), P x := by
  intro x hx
  unfold hitMapUpsert at hx
  split at hx
  · unfold hitMapValues at hx
    rw [List.map_map, List.mem_map] at hx
    obtain ⟨p, hp, hpx⟩ := hx
    simp only [Function.comp] at hpx
    split at hpx
    · rw [← hpx]
      exact hupd p.2 (hm p.2 (List.mem_map_of_mem Prod.snd hp))
    · rw [← hpx]
      exact hm p.2 (List.mem_map_of_mem Prod.snd hp)
  · unfold hitMapValues at hx
    rw [List.map_append, List.mem_append] at hx
    rcases hx with hx | hx
    · exact hm x hx
    · simp only [List.map_cons, List.map_nil, List.mem_singleton] at hx
      rw [hx]
      exact hv

@[simp] lemma serialize_chunk_result_library_id (row : MRow) (score : ℚ) (source : String)
    (me : List String) (vs ko go eo : ℚ) :
    (serialize_chunk_result row score source me vs ko go eo).library_id = row.library_id := rfl

@[simp] lemma serialize_chunk_result_chunk_id (row : MRow) (score : ℚ) (source : String)
    (me : List String) (vs ko go eo : ℚ) :
    (serialize_chunk_result row score source me vs ko go eo).chunk_id = row.chunk_id := rfl

lemma refineItem_library_id (O : QueryOracle) (T : TermSets) (sm : Bool) (item : HitRec) :
    (refineItem O T sm item).library_id = item.library_id := by
  unfold refineItem
  dsimp only
  split_ifs <;> rfl

lemma refineItem_chunk_id (O : QueryOracle) (T : TermSets) (sm : Bool) (item : HitRec) :
    (refineItem O T sm item).chunk_id = item.chunk_id := by
  unfold refineItem
  dsimp only
  split_ifs <;> rfl

lemma fuseVector_library {library_ids : List String} {O : QueryOracle} {vc : List MRow}
    (hvc : ∀ r ∈ vc, library_ids.contains r.library_id = true) :
    ∀ x ∈ hitMapValues (fuseVector O vc), library_ids.contains x.library_id = true := by
  unfold fuseVector
  apply foldl_preserve
    (P := fun m : HitMap => ∀ x ∈ hitMapValues m, library_ids.contains x.library_id = true)
  · intro x hx
    simp [hitMapValues] at hx
  · intro m a ha hm
    exact hitMapValues_set hm (by
      rw [serialize_chunk_result_library_id]
      exact hvc a.2 (snd_mem_of_mem_enum ha))

lemma fuseKeyword_library {library_ids : List String} {O : QueryOracle} {T : TermSets}
    {kc : List MRow} {m0 : HitMap}
    (hkc : ∀ r ∈ kc, library_ids.contains r.library_id = true)
    (hm0 : ∀ x ∈ hitMapValues m0, library_ids.contains x.library_id = true) :
    ∀ x ∈ hitMapValues (fuseKeyword O T kc m0), library_ids.contains x.library_id = true := by
  unfold fuseKeyword
  apply foldl_preserve
    (P := fun m : HitMap => ∀ x ∈ hitMapValues m, library_ids.contains x.library_id = true)
  · exact hm0
  · intro m a ha hm
    exact hitMapValues_upsert hm (fun x hx => hx) (hkc a.2 (snd_mem_of_mem_enum ha))

lemma fuseGraph_library {library_ids : List String} {O : QueryOracle} {T : TermSets}
    {cfg : RuntimeConfig} {gc : List MRow} {m0 : HitMap}
    (hgc : ∀ r ∈ gc, library_ids.contains r.library_id = true)
    (hm0 : ∀ x ∈ hitMapValues m0, library_ids.contains x.library_id = true) :
    ∀ x ∈ hitMapValues (fuseGraph O T cfg gc m0), library_ids.contains x.library_id = true := by
  unfold fuseGraph
  apply foldl_preserve
    (P := fun m : HitMap => ∀ x ∈ hitMapValues m, library_ids.contains x.library_id = true)
  · exact hm0
  · intro m a ha hm
    exact hitMapValues_upsert hm (fun x hx => hx) (hgc a.2 (snd_mem_of_mem_enum ha))

/-- Every record in the fused, refined and sorted candidate list lies in a
requested library. -/
lemma hybridOrdered_library {rows : List MRow} {library_ids : List String}
    {O : QueryOracle} {top_k : Nat} {cfg : RuntimeConfig} {x : HitRec}
    (hx : x ∈ hybridOrdered rows library_ids O top_k cfg) :
    library_ids.contains x.library_id = true := by
  unfold hybridOrdered at hx
  simp only [] at hx
  have hx1 := mem_stableSortBy hx
  rw [List.mem_map] at hx1
  obtain ⟨item, hitem, href⟩ := hx1
  rw [← href, refineItem_library_id]
  exact fuseGraph_library (fun r hr => graphChannel_library hr)
    (fuseKeyword_library (fun r hr => keywordChannel_library hr)
      (fuseVector_library (fun r hr => vectorChannel_library hr)))
    item hitem

/-! Selection output is drawn from the candidates. -/

lemma bucketAdd_mem {bs : List (String × List HitRec)} {k : String} {item x : HitRec}
    {p : String × List HitRec} (hp : p ∈ bucketAdd bs k item) (hx : x ∈ p.2) :
    (∃ q ∈ bs, x ∈ q.2) ∨ x = item := by
  unfold bucketAdd at hp
  split at hp
  · rw [List.mem_map] at hp
    obtain ⟨q, hq, hqp⟩ := hp
    by_cases hk : q.1 = k
    · rw [if_pos hk] at hqp
      rw [← hqp] at hx
      simp only [List.mem_append, List.mem_singleton] at hx
      rcases hx with hx | hx
      · exact Or.inl ⟨q, hq, hx⟩
      · exact Or.inr hx
    · rw [if_neg hk] at hqp
      rw [← hqp] at hx
      exact Or.inl ⟨q, hq, hx⟩
  · rw [List.mem_append, List.mem_singleton] at hp
    rcases hp with hp | hp
    · exact Or.inl ⟨p, hp, hx⟩
    · rw [hp] at hx
      simp only [List.mem_singleton] at hx
      exact Or.inr hx

lemma bucketsOfAux_mem : ∀ (l : List HitRec) (bs : List (String × List HitRec))
    {p : String × List HitRec} {x : HitRec},
    p ∈ bucketsOfAux bs l → x ∈ p.2 → (∃ q ∈ bs, x ∈ q.2) ∨ x ∈ l := by
  intro l
  induction l with
  | nil =>
    intro bs p x hp hx
    exact Or.inl ⟨p, hp, hx⟩
  | cons item rest ih =>
    intro bs p x hp hx
    rcases ih (bucketAdd bs (fileKey item) item) hp hx with hmem | hmem
    · obtain ⟨q, hq, hxq⟩ := hmem
      rcases bucketAdd_mem hq hxq with hmem2 | hmem2
      · exact Or.inl hmem2
      · exact Or.inr (by simp [hmem2])
    · exact Or.inr (by simp [hmem])

lemma bucketsOf_mem {candidates : List HitRec} {p : String × List HitRec} {x : HitRec}
    (hp : p ∈ bucketsOf candidates) (hx : x ∈ p.2) : x ∈ candidates := by
  rcases bucketsOfAux_mem candidates [] hp hx with h | h
  · obtain ⟨q, hq, _⟩ := h
    cases hq
  · exact h

/-- All selection phases only ever append elements that occur in one of the
sorted file buckets (phases 1-2) or in the raw candidate list (fill). -/
lemma diversePhase1_selected (sorted_files : List (String × List HitRec)) (target : Nat)
    (candidates : List HitRec)
    (hsf : ∀ p ∈ sorted_files, ∀ x ∈ p.2, x ∈ candidates) :
    ∀ x ∈ (diversePhase1 sorted_files target).selected, x ∈ candidates := by
  unfold diversePhase1
  apply foldl_preserve
    (P := fun st : DiverseState => ∀ x ∈ st.selected, x ∈ candidates)
  · intro x hx
    simp at hx
  · intro st p hp hst x hx
    obtain ⟨k, items⟩ := p
    dsimp only at hx
    split at hx
    · exact hst x hx
    · cases items with
      | nil => exact hst x hx
      | cons c tail =>
        dsimp only at hx
        split at hx
        · exact hst x hx
        · simp only [List.mem_append, List.mem_singleton] at hx
          rcases hx with hx | hx
          · exact hst x hx
          · rw [hx]
            exact hsf ⟨k, c :: tail⟩ hp c (List.mem_cons_self c tail)

lemma diversePassStep_selected (top_k cap : Nat) (candidates : List HitRec)
    (acc : DiverseState × Bool × Bool) (p : String × List HitRec)
    (hp : ∀ x ∈ p.2, x ∈ candidates)
    (hacc : ∀ x ∈ acc.1.selected, x ∈ candidates) :
    ∀ x ∈ (diversePassStep top_k cap acc p).1.selected, x ∈ candidates := by
  unfold diversePassStep
  obtain ⟨st, progress, stop⟩ := acc
  dsimp only
  split
  · exact hacc
  · split
    · exact hacc
    · split
      · exact hacc
      · split
        · exact hacc
        · rename_i candidate hc
          split
          · exact hacc
          · intro x hx
            have hcand : candidate ∈ p.2 := List.getElem?_mem hc
            split at hx <;>
            · simp only [List.mem_append, List.mem_singleton] at hx
              rcases hx with hx | hx
              · exact hacc x hx
              · rw [hx]
                exact hp candidate hcand

lemma diverseLoop_selected (sorted_files : List (String × List HitRec))
    (top_k cap : Nat) (candidates : List HitRec)
    (hsf : ∀ p ∈ sorted_files, ∀ x ∈ p.2, x ∈ candidates) :
    ∀ fuel (st : DiverseState),
    (∀ x ∈ st.selected, x ∈ candidates) →
    ∀ x ∈ (diverseLoop sorted_files top_k cap fuel st).selected, x ∈ candidates := by
  intro fuel
  induction fuel with
  | zero => intro st hst; exact hst
  | succ fuel ih =>
    intro st hst
    unfold diverseLoop
    dsimp only
    split
    · have hpass : ∀ x ∈ (sorted_files.foldl (diversePassStep top_k cap)
          (st, false, false)).1.selected, x ∈ candidates := by
        apply foldl_preserve
          (P := fun acc : DiverseState × Bool × Bool =>
            ∀ x ∈ acc.1.selected, x ∈ candidates)
        · exact hst
        · intro acc p hp hacc
          exact diversePassStep_selected top_k cap candidates acc p (hsf p hp) hacc
      split
      · exact ih _ hpass
      · exact hpass
    · exact hst

lemma diverseFill_selected (candidates : List HitRec) (top_k : Nat) (st : DiverseState)
    (hst : ∀ x ∈ st.selected, x ∈ candidates) :
    ∀ x ∈ (diverseFill candidates top_k st).selected, x ∈ candidates := by
  unfold diverseFill
  apply foldl_preserve
    (P := fun st : DiverseState => ∀ x ∈ st.selected, x ∈ candidates)
  · exact hst
  · intro st c hc hst x hx
    split at hx
    · exact hst x hx
    · split at hx
      · exact hst x hx
      · simp only [List.mem_append, List.mem_singleton] at hx
        rcases hx with hx | hx
        · exact hst x hx
        · rw [hx]
          exact hc

/-- `_select_diverse_hits` only returns chunks drawn from its candidate
list. -/
lemma select_diverse_hits_subset {candidates : List HitRec} {top_k cap mf : Nat} :
    ∀ x ∈ select_diverse_hits candidates top_k cap mf, x ∈ candidates := by
  intro x hx
  unfold select_diverse_hits at hx
  split at hx
  · cases hx
  · simp only [] at hx
    have hsf : ∀ p ∈ stableSortBy
        (fun a b => decide (bucketScore b ≤ bucketScore a)) (bucketsOf candidates),
        ∀ y ∈ p.2, y ∈ candidates := by
      intro p hp y hy
      exact bucketsOf_mem (mem_stableSortBy hp) hy
    refine diverseFill_selected candidates top_k _ ?_ x (List.mem_of_mem_take hx)
    refine diverseLoop_selected _ top_k (max 1 (min cap 6)) candidates hsf
      (candidates.length + 1) _ ?_
    exact diversePhase1_selected _ _ candidates hsf

/-- `_finalize_retrieval_hits` only returns records from its input list. -/
lemma finalize_retrieval_hits_subset {O : QueryOracle} {ordered : List HitRec}
    {top_k : Nat} {cfg : RuntimeConfig} {sm al ci ri : Bool} :
    ∀ x ∈ finalize_retrieval_hits O ordered top_k cfg sm al ci ri, x ∈ ordered := by
  intro x hx
  unfold finalize_retrieval_hits at hx
  split at hx
  · cases hx
  · simp only [] at hx
    split at hx
    · cases hx
    · split at hx
      · cases hx
      · split at hx
        · exact List.mem_filter.mp (select_diverse_hits_subset x hx) |>.1
        · exact List.mem_filter.mp (List.mem_of_mem_take hx) |>.1

/-- Keyword-fallback results carry rows of the requested libraries. -/
lemma fallbackCollect_library {library_ids : List String} {me : List String} {mc : Nat} :
    ∀ (pend : List (ℚ × MRow × ℚ × ℚ)) (results : List HitRec) (used : List String),
    (∀ q ∈ pend, library_ids.contains q.2.1.library_id = true) →
    (∀ x ∈ results, library_ids.contains x.library_id = true) →
    ∀ x ∈ fallbackCollect me mc pend results used,
      library_ids.contains x.library_id = true := by
  intro pend
  induction pend with
  | nil => intro results used _ hres; exact hres
  | cons q rest ih =>
    intro results used hpend hres x hx
    obtain ⟨score, row, ko, ao⟩ := q
    unfold fallbackCollect at hx
    split at hx
    · exact hres x hx
    · split at hx
      · exact ih results used (fun q hq => hpend q (by simp [hq])) hres x hx
      · refine ih _ _ (fun q hq => hpend q (by simp [hq])) ?_ x hx
        intro y hy
        simp only [List.mem_append, List.mem_singleton] at hy
        rcases hy with hy | hy
        · exact hres y hy
        · rw [hy]
          exact hpend (score, row, ko, ao) (by simp)

lemma fulltext_keyword_fallback_search_library {O : QueryOracle} {rows : List MRow}
    {library_ids : List String} {top_k : Nat} {kq kts ats : List String}
    {ci ri : Bool} {me : List String} {cfg : RuntimeConfig} :
    ∀ x ∈ fulltext_keyword_fallback_search O rows library_ids top_k kq kts ats ci ri me cfg,
      library_ids.contains x.library_id = true := by
  intro x hx
  unfold fulltext_keyword_fallback_search at hx
  simp only [] at hx
  split at hx
  · cases hx
  · refine fallbackCollect_library _ [] [] ?_ (by intro y hy; cases hy) x hx
    intro q hq
    have h1 := mem_stableSortBy hq
    rw [List.mem_filterMap] at h1
    obtain ⟨row, hrow, hsome⟩ := h1
    have hq2 : q.2.1 = row := by
      split at hsome
      · cases hsome
      · split at hsome
        · cases hsome
        · cases hsome
          rfl
    rw [hq2]
    have h2 := (mem_filter_take hrow).2
    rw [Bool.and_eq_true] at h2
    exact h2.1

/-- `_merge_retrieval_results` only emits records of its two inputs. -/
lemma merge_retrieval_results_mem {primary secondary : List HitRec} {mi : Nat} :
    ∀ x ∈ merge_retrieval_results primary secondary mi,
      x ∈ primary ∨ x ∈ secondary := by
  intro x hx
  unfold merge_retrieval_results at hx
  simp only [] at hx
  have hmain : ∀ y ∈ (((primary ++ secondary).foldl (fun acc item =>
      if item.chunk_id = "" || acc.2.contains item.chunk_id
          || max 5 (min mi 800) ≤ acc.1.length then acc
      else (acc.1 ++ [item], acc.2 ++ [item.chunk_id]))
      (([], []) : List HitRec × List String)).1), y ∈ primary ++ secondary := by
    apply foldl_preserve
      (P := fun acc : List HitRec × List String => ∀ y ∈ acc.1, y ∈ primary ++ secondary)
    · intro y hy
      cases hy
    · intro acc item hitem hacc y hy
      split at hy
      · exact hacc y hy
      · simp only [List.mem_append, List.mem_singleton] at hy
        rcases hy with hy | hy
        · exact hacc y hy
        · exact hy ▸ hitem
  have := hmain x hx
  rwa [List.mem_append] at this

/-- C2: every hit record returned by `hybrid_search` — whether produced by
the vector, keyword, graph or keyword-fallback channel, before or after
relaxation and merging — carries a `library_id` from the input
`library_ids` list, because every channel query filters on
`Chunk.library_id.in_(library_ids)`. -/
theorem hybrid_search_library_scoped (rows : List MRow) (library_ids : List String)
    (O : QueryOracle) (top_k : Nat) (cfg : RuntimeConfig) (hit : HitRec)
    (hmem : hit ∈ hybridSearch rows library_ids O top_k cfg) :
    library_ids.contains hit.library_id = true := by
  unfold hybridSearch at hmem
  split at hmem
  · cases hmem
  · simp only [] at hmem
    split at hmem
    · split at hmem
      · split at hmem
        · rcases merge_retrieval_results_mem hit hmem with h | h
          · exact hybridOrdered_library (finalize_retrieval_hits_subset hit h)
          · exact fulltext_keyword_fallback_search_library hit h
        · exact hybridOrdered_library (finalize_retrieval_hits_subset hit hmem)
      · exact hybridOrdered_library (finalize_retrieval_hits_subset hit hmem)
    · split at hmem
      · cases hmem
      · split at hmem
        · exact hybridOrdered_library (finalize_retrieval_hits_subset hit hmem)
        · exact fulltext_keyword_fallback_search_library hit hmem

/-- A one-chunk library row for concrete engine runs. -/
def c2Row : MRow where
  chunk_id := "c1"
  file_id := "f1"
  library_id := "L1"
  file_name := "doc.txt"
  content := "hello"

/-- A trivial query oracle: zero cosine distance, no intents, no derived
terms. -/
def c2Oracle : QueryOracle where
  vectorDistance := fun _ => 0
  isGlobalSummary := false
  countIntent := false
  rosterIntent := false
  countSignal := fun _ => false
  rosterSignal := fun _ _ => false
  rawQueryTerms := []
  queryTokens := []
  queryEntities := []
  contextEntities := []
  graphTermsBase := []
  graphMatches := []
  rosterMinedTerms := []

/-- Default config with the weak-hit fallback expansion disabled. -/
def c2Cfg : RuntimeConfig :=
  { defaultRuntimeConfig with keyword_fallback_expand_on_weak_hits := false }

/-- The single vector-channel hit the engine returns on `c2Row`. -/
def c2Hit : HitRec where
  chunk_id := "c1"
  file_id := "f1"
  library_id := "L1"
  file_name := "doc.txt"
  snippet := "hello"
  score := 1
  source := "vector"
  matched_entities := []
  vector_similarity := 1
  keyword_overlap := 0
  graph_overlap := 0
  entity_overlap := 0
  anchor_overlap := 0
  query_focus_overlap := 0

set_option maxHeartbeats 3200000 in
lemma hybridSearch_c2_run : hybridSearch [c2Row] ["L1"] c2Oracle 5 c2Cfg = [c2Hit] := by
  norm_num [hybridSearch, hybridOrdered, engineParams, rosterTerms, preRosterTerms,
    rosterActive, filter_keyword_queries, normalize_search_terms, build_anchor_terms,
    merge_entities_preserve_order, vectorChannel, keywordChannelBase, keywordChannel,
    graphChannel, dedupFirst, fuseVector, fuseKeyword, fuseGraph, hitMapSet, hitMapUpsert,
    hitMapValues, serialize_chunk_result, score_vector_candidate, term_hit_ratio,
    refineItem, stableSortBy, insertSortedBy, round6, finalize_retrieval_hits,
    is_retrieval_hit, has_summary_signals, has_lenient_hit_signals,
    should_expand_to_keyword_fallback, listMaxQ, score_keyword_candidate,
    score_sparse_candidate, takeStr, strContainsCI, strContains, charsContain, lowerStr,
    trimStr, normalize_entity, normalizeWs, splitChars, joinWithSpace, round_eq,
    c2Row, c2Oracle, c2Cfg, c2Hit, defaultRuntimeConfig, List.enum, List.enumFrom]

/-- C2 witness: on a concrete run the returned hit's library is among the
requested ones. -/
theorem hybrid_search_library_scoped_witness :
    (["L1"] : List String).contains c2Hit.library_id = true :=
  hybrid_search_library_scoped [c2Row] ["L1"] c2Oracle 5 c2Cfg c2Hit
    (by rw [hybridSearch_c2_run]; exact List.mem_singleton_self c2Hit)

/-! ### Distinct chunk ids (claim C10) -/

/-- Well-formedness of the fusion dictionary: keys are distinct and every
value records its own key as `chunk_id`. -/
def HitMapWF (m : HitMap) : Prop :=
  (m.map Prod.fst).Nodup ∧ ∀ p ∈ m, p.2.chunk_id = p.1

lemma hitMapWF_nil : HitMapWF [] := by
  constructor
  · exact List.nodup_nil
  · intro p hp
    cases hp

lemma hitMapWF_set {m : HitMap} {k : String} {v : HitRec}
    (hm : HitMapWF m) (hv : v.chunk_id = k) : HitMapWF (hitMapSet m k v) := by
  unfold hitMapSet
  split
  · constructor
    · have : (m.map (fun p => if p.1 = k then (k, v) else p)).map Prod.fst = m.map Prod.fst := by
        rw [List.map_map]
        apply List.map_congr_left
        intro p _
        by_cases hk : p.1 = k
        · simp [hk]
        · simp [hk]
      rw [this]
      exact hm.1
    · intro p hp
      rw [List.mem_map] at hp
      obtain ⟨q, hq, hqp⟩ := hp
      by_cases hk : q.1 = k
      · rw [if_pos hk] at hqp
        rw [← hqp]
        exact hv
      · rw [if_neg hk] at hqp
        rw [← hqp]
        exact hm.2 q hq
  · rename_i hnc
    constructor
    · rw [List.map_append]
      rw [List.nodup_append]
      refine ⟨hm.1, by simp, ?_⟩
      intro a ha
      simp only [List.map_cons, List.map_nil, List.mem_singleton]
      intro hak
      rw [List.mem_map] at ha
      obtain ⟨p, hp, hpa⟩ := ha
      exact hnc (by
        rw [List.any_eq_true]
        exact ⟨p, hp, by rw [decide_eq_true_eq, hpa, hak]⟩)
    · intro p hp
      rw [List.mem_append] at hp
      rcases hp with hp | hp
      · exact hm.2 p hp
      · simp only [List.mem_singleton] at hp
        rw [hp]
        exact hv

lemma hitMapWF_upsert {m : HitMap} {k : String} {upd : HitRec → HitRec} {v : HitRec}
    (hm : HitMapWF m) (hupd : ∀ x, (upd x).chunk_id = x.chunk_id)
    (hv : v.chunk_id = k) : HitMapWF (hitMapUpsert m k upd v) := by
  unfold hitMapUpsert
  split
  · constructor
    · have : (m.map (fun p => if p.1 = k then (k, upd p.2) else p)).map Prod.fst
          = m.map Prod.fst := by
        rw [List.map_map]
        apply List.map_congr_left
        intro p _
        by_cases hk : p.1 = k
        · simp [hk]
        · simp [hk]
      rw [this]
      exact hm.1
    · intro p hp
      rw [List.mem_map] at hp
      obtain ⟨q, hq, hqp⟩ := hp
      by_cases hk : q.1 = k
      · rw [if_pos hk] at hqp
        rw [← hqp]
        dsimp only
        rw [hupd q.2, hm.2 q hq, hk]
      · rw [if_neg hk] at hqp
        rw [← hqp]
        exact hm.2 q hq
  · rename_i hnc
    constructor
    · rw [List.map_append, List.nodup_append]
      refine ⟨hm.1, by simp, ?_⟩
      intro a ha
      simp only [List.map_cons, List.map_nil, List.mem_singleton]
      intro hak
      rw [List.mem_map] at ha
      obtain ⟨p, hp, hpa⟩ := ha
      exact hnc (by
        rw [List.any_eq_true]
        exact ⟨p, hp, by rw [decide_eq_true_eq, hpa, hak]⟩)
    · intro p hp
      rw [List.mem_append] at hp
      rcases hp with hp | hp
      · exact hm.2 p hp
      · simp only [List.mem_singleton] at hp
        rw [hp]
        exact hv

lemma hitMapValues_nodup {m : HitMap} (hm : HitMapWF m) :
    ((hitMapValues m).map (·.chunk_id)).Nodup := by
  unfold hitMapValues
  rw [List.map_map]
  have : m.map ((·.chunk_id) ∘ Prod.snd) = m.map Prod.fst := by
    apply List.map_congr_left
    intro p hp
    exact hm.2 p hp
  rw [this]
  exact hm.1

lemma fuseVector_wf {O : QueryOracle} {vc : List MRow} : HitMapWF (fuseVector O vc) := by
  unfold fuseVector
  apply foldl_preserve (P := HitMapWF)
  · exact hitMapWF_nil
  · intro m a _ hm
    exact hitMapWF_set hm (serialize_chunk_result_chunk_id _ _ _ _ _ _ _ _)

lemma fuseKeyword_wf {O : QueryOracle} {T : TermSets} {kc : List MRow} {m0 : HitMap}
    (hm0 : HitMapWF m0) : HitMapWF (fuseKeyword O T kc m0) := by
  unfold fuseKeyword
  apply foldl_preserve (P := HitMapWF)
  · exact hm0
  · intro m a _ hm
    exact hitMapWF_upsert hm (fun x => rfl) rfl

lemma fuseGraph_wf {O : QueryOracle} {T : TermSets} {cfg : RuntimeConfig}
    {gc : List MRow} {m0 : HitMap} (hm0 : HitMapWF m0) :
    HitMapWF (fuseGraph O T cfg gc m0) := by
  unfold fuseGraph
  apply foldl_preserve (P := HitMapWF)
  · exact hm0
  · intro m a _ hm
    exact hitMapWF_upsert hm (fun x => rfl) rfl

/-- The fused, refined and sorted candidates have pairwise distinct chunk
ids: fusion is keyed by chunk id. -/
lemma hybridOrdered_nodup {rows : List MRow} {library_ids : List String}
    {O : QueryOracle} {top_k : Nat} {cfg : RuntimeConfig} :
    ((hybridOrdered rows library_ids O top_k cfg).map (·.chunk_id)).Nodup := by
  unfold hybridOrdered
  simp only []
  apply (List.Perm.nodup_iff ((stableSortBy_perm _ _).map _)).mpr
  rw [List.map_map]
  simp only [Function.comp_def]
  rw [List.map_congr_left
    (fun x _ => refineItem_chunk_id O (rosterTerms O cfg)
      (engineParams O top_k cfg).summary_mode x)]
  exact hitMapValues_nodup (fuseGraph_wf (fuseKeyword_wf fuseVector_wf))

/-- The `used` id set tracked by the selection phases is exactly the ids of
the selected chunks, and it never repeats. -/
def DiverseInv (st : DiverseState) : Prop :=
  st.used = st.selected.map (·.chunk_id) ∧ st.used.Nodup

lemma diversePhase1_inv (sorted_files : List (String × List HitRec)) (target : Nat) :
    DiverseInv (diversePhase1 sorted_files target) := by
  unfold diversePhase1
  apply foldl_preserve (P := DiverseInv)
  · exact ⟨rfl, List.nodup_nil⟩
  · intro st p _ hst
    obtain ⟨k, items⟩ := p
    dsimp only
    split
    · exact hst
    · cases items with
      | nil => exact hst
      | cons c tail =>
        dsimp only
        split
        · exact hst
        · rename_i hnc
          refine ⟨?_, ?_⟩
          · simp [hst.1]
          · rw [List.nodup_append]
            refine ⟨hst.2, by simp, ?_⟩
            intro a ha
            simp only [List.mem_singleton]
            intro hac
            rw [hac] at ha
            exact hnc (by
              rw [List.contains_eq_any_beq, List.any_eq_true]
              exact ⟨c.chunk_id, ha, by simp⟩)

lemma diversePassStep_inv (top_k cap : Nat) (acc : DiverseState × Bool × Bool)
    (p : String × List HitRec) (hacc : DiverseInv acc.1) :
    DiverseInv (diversePassStep top_k cap acc p).1 := by
  unfold diversePassStep
  obtain ⟨st, progress, stop⟩ := acc
  dsimp only at hacc ⊢
  split
  · exact hacc
  · split
    · exact hacc
    · split
      · exact hacc
      · split
        · exact hacc
        · rename_i candidate _
          split
          · exact hacc
          · rename_i hnc
            have hnew : DiverseInv
                { selected := st.selected ++ [candidate]
                  used := st.used ++ [candidate.chunk_id]
                  takenPerFile := tpfSet st.takenPerFile p.1 (tpfGet st.takenPerFile p.1 + 1) } := by
              refine ⟨by simp [hacc.1], ?_⟩
              rw [List.nodup_append]
              refine ⟨hacc.2, by simp, ?_⟩
              intro a ha
              simp only [List.mem_singleton]
              intro hac
              rw [hac] at ha
              exact hnc (by
                rw [List.contains_eq_any_beq, List.any_eq_true]
                exact ⟨candidate.chunk_id, ha, by simp⟩)
            split
            · exact hnew
            · exact hnew

lemma diverseLoop_inv (sorted_files : List (String × List HitRec)) (top_k cap : Nat) :
    ∀ fuel (st : DiverseState), DiverseInv st →
    DiverseInv (diverseLoop sorted_files top_k cap fuel st) := by
  intro fuel
  induction fuel with
  | zero => intro st hst; exact hst
  | succ fuel ih =>
    intro st hst
    unfold diverseLoop
    dsimp only
    split
    · have hpass : DiverseInv (sorted_files.foldl (diversePassStep top_k cap)
          (st, false, false)).1 := by
        apply foldl_preserve
          (P := fun acc : DiverseState × Bool × Bool => DiverseInv acc.1)
        · exact hst
        · intro acc p _ hacc
          exact diversePassStep_inv top_k cap acc p hacc
      split
      · exact ih _ hpass
      · exact hpass
    · exact hst

lemma diverseFill_inv (candidates : List HitRec) (top_k : Nat) (st : DiverseState)
    (hst : DiverseInv st) : DiverseInv (diverseFill candidates top_k st) := by
  unfold diverseFill
  apply foldl_preserve (P := DiverseInv)
  · exact hst
  · intro st c _ hst
    split
    · exact hst
    · split
      · exact hst
      · rename_i hnc
        refine ⟨by simp [hst.1], ?_⟩
        rw [List.nodup_append]
        refine ⟨hst.2, by simp, ?_⟩
        intro a ha
        simp only [List.mem_singleton]
        intro hac
        rw [hac] at ha
        exact hnc (by
          rw [List.contains_eq_any_beq, List.any_eq_true]
          exact ⟨c.chunk_id, ha, by simp⟩)

/-- `_select_diverse_hits` never emits the same chunk id twice: every phase
consults the `used_chunk_ids` set before appending. -/
lemma select_diverse_hits_nodup (candidates : List HitRec) (top_k cap mf : Nat) :
    ((select_diverse_hits candidates top_k cap mf).map (·.chunk_id)).Nodup := by
  unfold select_diverse_hits
  split
  · simp
  · simp only []
    set sorted_files := stableSortBy (fun a b => decide (bucketScore b ≤ bucketScore a))
      (bucketsOf candidates) with hsf
    set target := min (min sorted_files.length (max 1 (min mf 10))) top_k with htg
    have hinv := diverseFill_inv candidates top_k
      (diverseLoop sorted_files top_k (max 1 (min cap 6)) (candidates.length + 1)
        (diversePhase1 sorted_files target))
      (diverseLoop_inv sorted_files top_k (max 1 (min cap 6)) (candidates.length + 1)
        (diversePhase1 sorted_files target) (diversePhase1_inv sorted_files target))
    have hsel := hinv.1 ▸ hinv.2
    exact ((List.take_sublist top_k _).map _).nodup hsel

/-- `_finalize_retrieval_hits` preserves chunk-id distinctness of its
input (summary mode re-derives it from the `used_chunk_ids` set). -/
lemma finalize_retrieval_hits_nodup {O : QueryOracle} {ordered : List HitRec}
    {top_k : Nat} {cfg : RuntimeConfig} {sm al ci ri : Bool}
    (hord : (ordered.map (·.chunk_id)).Nodup) :
    ((finalize_retrieval_hits O ordered top_k cfg sm al ci ri).map (·.chunk_id)).Nodup := by
  unfold finalize_retrieval_hits
  split
  · simp
  · simp only []
    split
    · simp
    · split
      · simp
      · split
        · exact select_diverse_hits_nodup _ _ _ _
        · exact ((List.take_sublist top_k _).map _).nodup
            (((List.filter_sublist ordered).map _).nodup hord)

/-- The keyword-fallback collector never repeats a chunk id. -/
lemma fallbackCollect_nodup {me : List String} {mc : Nat} :
    ∀ (pend : List (ℚ × MRow × ℚ × ℚ)) (results : List HitRec) (used : List String),
    used = results.map (·.chunk_id) → used.Nodup →
    ((fallbackCollect me mc pend results used).map (·.chunk_id)).Nodup := by
  intro pend
  induction pend with
  | nil =>
    intro results used hequ hnd
    rw [hequ] at hnd
    exact hnd
  | cons q rest ih =>
    intro results used hequ hnd
    obtain ⟨score, row, ko, ao⟩ := q
    unfold fallbackCollect
    split
    · rw [hequ] at hnd
      exact hnd
    · split
      · exact ih results used hequ hnd
      · rename_i hnc
        refine ih _ _ (by simp [hequ]) ?_
        rw [List.nodup_append]
        refine ⟨hnd, by simp, ?_⟩
        intro a ha
        simp only [List.mem_singleton]
        intro hac
        rw [hac] at ha
        exact hnc (by
          rw [List.contains_eq_any_beq, List.any_eq_true]
          exact ⟨row.chunk_id, ha, by simp⟩)

lemma fulltext_keyword_fallback_search_nodup {O : QueryOracle} {rows : List MRow}
    {library_ids : List String} {top_k : Nat} {kq kts ats : List String}
    {ci ri : Bool} {me : List String} {cfg : RuntimeConfig} :
    ((fulltext_keyword_fallback_search O rows library_ids top_k kq kts ats ci ri me cfg).map
      (·.chunk_id)).Nodup := by
  unfold fulltext_keyword_fallback_search
  simp only []
  split
  · simp
  · exact fallbackCollect_nodup _ [] [] rfl List.nodup_nil

/-- `_merge_retrieval_results` never emits the same chunk id twice. -/
lemma merge_retrieval_results_nodup {primary secondary : List HitRec} {mi : Nat} :
    ((merge_retrieval_results primary secondary mi).map (·.chunk_id)).Nodup := by
  unfold merge_retrieval_results
  simp only []
  have hmain : ∀ acc : List HitRec × List String,
      acc.2 = acc.1.map (·.chunk_id) → acc.2.Nodup →
      (((primary ++ secondary).foldl (fun acc item =>
        if item.chunk_id = "" || acc.2.contains item.chunk_id
            || max 5 (min mi 800) ≤ acc.1.length then acc
        else (acc.1 ++ [item], acc.2 ++ [item.chunk_id]))
        acc).1.map (·.chunk_id)).Nodup := by
    induction (primary ++ secondary) with
    | nil =>
      intro acc hequ hnd
      rw [hequ] at hnd
      exact hnd
    | cons item rest ih =>
      intro acc hequ hnd
      simp only [List.foldl_cons]
      split
      · exact ih acc hequ hnd
      · rename_i hcond
        rw [Bool.or_eq_true, Bool.or_eq_true] at hcond
        push_neg at hcond
        refine ih _ (by simp [hequ]) ?_
        rw [List.nodup_append]
        refine ⟨hnd, by simp, ?_⟩
        intro a ha
        simp only [List.mem_singleton]
        intro hac
        rw [hac] at ha
        have hnc : ¬ acc.2.contains item.chunk_id = true := hcond.1.2
        exact hnc (by
          rw [List.contains_eq_any_beq, List.any_eq_true]
          exact ⟨item.chunk_id, ha, by simp⟩)
  exact hmain ([], []) rfl List.nodup_nil

/-- C10: every list returned by `hybrid_search` has pairwise-distinct
`chunk_id` values: fusion merges by chunk id, the keyword fallback filters
through a used-id set, and `_merge_retrieval_results` skips ids already
emitted by the primary list. -/
theorem hybrid_search_distinct_chunk_ids (rows : List MRow) (library_ids : List String)
    (O : QueryOracle) (top_k : Nat) (cfg : RuntimeConfig) :
    ((hybridSearch rows library_ids O top_k cfg).map (·.chunk_id)).Nodup := by
  unfold hybridSearch
  split
  · simp
  · simp only []
    split
    · split
      · split
        · exact merge_retrieval_results_nodup
        · exact finalize_retrieval_hits_nodup hybridOrdered_nodup
      · exact finalize_retrieval_hits_nodup hybridOrdered_nodup
    · split
      · simp
      · split
        · exact finalize_retrieval_hits_nodup hybridOrdered_nodup
        · exact fulltext_keyword_fallback_search_nodup

/-! ### Structure of the file buckets (claim C4) -/

/-- Well-formedness of a bucketed candidate list: distinct keys, each item
bucketed under its own file key, non-empty buckets, and globally distinct
chunk ids across all buckets. -/
structure BucketsWF (SF : List (String × List HitRec)) : Prop where
  keys_nodup : (SF.map Prod.fst).Nodup
  item_key : ∀ p ∈ SF, ∀ x ∈ p.2, fileKey x = p.1
  buckets_ne : ∀ p ∈ SF, p.2 ≠ []
  ids_nodup : ((SF.flatMap Prod.snd).map (·.chunk_id)).Nodup

lemma flatMap_mapBucket (bs : List (String × List HitRec)) (k : String) (item : HitRec)
    (hnd : (bs.map Prod.fst).Nodup) (hc : bs.any (fun p => p.1 = k) = true) :
    ((bs.map fun p => if p.1 = k then (p.1, p.2 ++ [item]) else p).flatMap Prod.snd).Perm
      (bs.flatMap Prod.snd ++ [item]) := by
  induction bs with
  | nil => cases hc
  | cons p rest ih =>
    simp only [List.map_cons, List.nodup_cons] at hnd
    by_cases hp : p.1 = k
    · have hrestid : rest.map (fun q => if q.1 = k then (q.1, q.2 ++ [item]) else q) = rest := by
        have hid : ∀ q ∈ rest, (if q.1 = k then (q.1, q.2 ++ [item]) else q) = id q := by
          intro q hq
          have : q.1 ≠ k := by
            intro hqk
            have hmem : k ∈ List.map Prod.fst rest := by
              rw [← hqk]
              exact List.mem_map_of_mem Prod.fst hq
            rw [hp] at hnd
            exact hnd.1 hmem
          simp [this]
        rw [List.map_congr_left hid, List.map_id]
      simp only [List.map_cons, if_pos hp, hrestid, List.flatMap_cons]
      rw [List.append_assoc, List.append_assoc]
      exact List.Perm.append_left p.2 List.perm_append_comm
    · have hcrest : rest.any (fun q => q.1 = k) = true := by
        simp only [List.any_cons, Bool.or_eq_true] at hc
        rcases hc with hc | hc
        · rw [decide_eq_true_eq] at hc
          exact absurd hc hp
        · exact hc
      simp only [List.map_cons, if_neg hp, List.flatMap_cons]
      rw [List.append_assoc]
      exact List.Perm.append_left p.2 (ih hnd.2 hcrest)

lemma bucketAdd_wfStep (bs : List (String × List HitRec)) (item : HitRec)
    (hk : (bs.map Prod.fst).Nodup)
    (hik : ∀ p ∈ bs, ∀ x ∈ p.2, fileKey x = p.1)
    (hne : ∀ p ∈ bs, p.2 ≠ []) :
    ((bucketAdd bs (fileKey item) item).map Prod.fst).Nodup ∧
    (∀ p ∈ bucketAdd bs (fileKey item) item, ∀ x ∈ p.2, fileKey x = p.1) ∧
    (∀ p ∈ bucketAdd bs (fileKey item) item, p.2 ≠ []) ∧
    ((bucketAdd bs (fileKey item) item).flatMap Prod.snd).Perm
      (bs.flatMap Prod.snd ++ [item]) := by
  unfold bucketAdd
  split
  · rename_i hc
    refine ⟨?_, ?_, ?_, flatMap_mapBucket bs (fileKey item) item hk hc⟩
    · have : (bs.map fun p => if p.1 = fileKey item then (p.1, p.2 ++ [item]) else p).map Prod.fst
          = bs.map Prod.fst := by
        rw [List.map_map]
        apply List.map_congr_left
        intro p _
        by_cases hp : p.1 = fileKey item <;> simp [hp]
      rw [this]
      exact hk
    · intro p hp x hx
      rw [List.mem_map] at hp
      obtain ⟨q, hq, hqp⟩ := hp
      by_cases hqk : q.1 = fileKey item
      · rw [if_pos hqk] at hqp
        rw [← hqp] at hx ⊢
        simp only [List.mem_append, List.mem_singleton] at hx
        rcases hx with hx | hx
        · exact hik q hq x hx
        · rw [hx, hqk]
      · rw [if_neg hqk] at hqp
        rw [← hqp] at hx ⊢
        exact hik q hq x hx
    · intro p hp
      rw [List.mem_map] at hp
      obtain ⟨q, hq, hqp⟩ := hp
      by_cases hqk : q.1 = fileKey item
      · rw [if_pos hqk] at hqp
        rw [← hqp]
        simp
      · rw [if_neg hqk] at hqp
        rw [← hqp]
        exact hne q hq
  · rename_i hc
    refine ⟨?_, ?_, ?_, by simp⟩
    · rw [List.map_append, List.nodup_append]
      refine ⟨hk, by simp, ?_⟩
      intro a ha
      simp only [List.map_cons, List.map_nil, List.mem_singleton]
      intro hak
      rw [List.mem_map] at ha
      obtain ⟨p, hp, hpa⟩ := ha
      exact hc (by
        rw [List.any_eq_true]
        exact ⟨p, hp, by rw [decide_eq_true_eq, hpa, hak]⟩)
    · intro p hp x hx
      rw [List.mem_append] at hp
      rcases hp with hp | hp
      · exact hik p hp x hx
      · simp only [List.mem_singleton] at hp
        rw [hp] at hx ⊢
        simp only [List.mem_singleton] at hx
        rw [hx]
    · intro p hp
      rw [List.mem_append] at hp
      rcases hp with hp | hp
      · exact hne p hp
      · simp only [List.mem_singleton] at hp
        rw [hp]
        simp

lemma bucketsOfAux_wf : ∀ (l : List HitRec) (bs : List (String × List HitRec)),
    (bs.map Prod.fst).Nodup →
    (∀ p ∈ bs, ∀ x ∈ p.2, fileKey x = p.1) →
    (∀ p ∈ bs, p.2 ≠ []) →
    ((bucketsOfAux bs l).map Prod.fst).Nodup ∧
    (∀ p ∈ bucketsOfAux bs l, ∀ x ∈ p.2, fileKey x = p.1) ∧
    (∀ p ∈ bucketsOfAux bs l, p.2 ≠ []) ∧
    ((bucketsOfAux bs l).flatMap Prod.snd).Perm (bs.flatMap Prod.snd ++ l) := by
  intro l
  induction l with
  | nil =>
    intro bs h1 h2 h3
    exact ⟨h1, h2, h3, by simp [bucketsOfAux]⟩
  | cons item rest ih =>
    intro bs h1 h2 h3
    have hstep := bucketAdd_wfStep bs item h1 h2 h3
    have hrec := ih (bucketAdd bs (fileKey item) item) hstep.1 hstep.2.1 hstep.2.2.1
    refine ⟨hrec.1, hrec.2.1, hrec.2.2.1, ?_⟩
    have hstep2 : ((bucketAdd bs (fileKey item) item).flatMap Prod.snd ++ rest).Perm
        (bs.flatMap Prod.snd ++ (item :: rest)) := by
      have := List.Perm.append_right rest hstep.2.2.2
      simpa [List.append_assoc] using this
    exact hrec.2.2.2.trans hstep2

lemma bucketsOf_wf (candidates : List HitRec)
    (hnd : (candidates.map (·.chunk_id)).Nodup) : BucketsWF (bucketsOf candidates) := by
  have h := bucketsOfAux_wf candidates [] (by simp) (by simp) (by simp)
  refine ⟨h.1, h.2.1, h.2.2.1, ?_⟩
  have hperm : ((bucketsOf candidates).flatMap Prod.snd).Perm candidates := by
    have := h.2.2.2
    simpa [bucketsOf] using this
  exact (hperm.map (·.chunk_id)).nodup_iff.mpr hnd

def bucketGet (SF : List (String × List HitRec)) (key : String) : List HitRec :=
  match SF.find? (fun p => p.1 = key) with
  | some p => p.2
  | none => []

lemma bucketGet_of_mem {SF : List (String × List HitRec)}
    (hnd : (SF.map Prod.fst).Nodup) {p : String × List HitRec} (hp : p ∈ SF) :
    bucketGet SF p.1 = p.2 := by
  induction SF with
  | nil => cases hp
  | cons q rest ih =>
    simp only [List.map_cons, List.nodup_cons] at hnd
    rcases List.mem_cons.mp hp with hpq | hpr
    · subst hpq
      unfold bucketGet
      simp [List.find?_cons]
    · have hne : q.1 ≠ p.1 := by
        intro he
        exact hnd.1 (he ▸ List.mem_map_of_mem Prod.fst hpr)
      unfold bucketGet
      rw [List.find?_cons]
      simp only [hne, decide_eq_true_eq, if_neg hne]
      exact ih hnd.2 hpr

lemma bucketGet_mem_of_ne {SF : List (String × List HitRec)} {key : String}
    (h : bucketGet SF key ≠ []) :
    ∃ p ∈ SF, p.1 = key ∧ p.2 = bucketGet SF key := by
  cases hf : SF.find? (fun p => p.1 = key) with
  | none =>
    exfalso
    apply h
    unfold bucketGet
    rw [hf]
  | some p =>
    have hmem := List.mem_of_find?_eq_some hf
    have hkey : p.1 = key := by simpa using List.find?_some hf
    refine ⟨p, hmem, hkey, ?_⟩
    unfold bucketGet
    rw [hf]

lemma tpfGet_nil (k : String) : tpfGet [] k = 0 := rfl

lemma tpfGet_cons (p : String × Nat) (m : List (String × Nat)) (k : String) :
    tpfGet (p :: m) k = if p.1 = k then p.2 else tpfGet m k := by
  unfold tpfGet
  rw [List.find?_cons]
  by_cases hp : p.1 = k
  · simp [hp]
  · simp [hp, tpfGet]

lemma tpfGet_mapSet_eq (m : List (String × Nat)) (k : String) (n : Nat)
    (hc : m.any (fun p => p.1 = k) = true) :
    tpfGet (m.map (fun p => if p.1 = k then (k, n) else p)) k = n := by
  induction m with
  | nil => cases hc
  | cons p rest ih =>
    by_cases hp : p.1 = k
    · simp only [List.map_cons, if_pos hp, tpfGet_cons]
      simp
    · simp only [List.map_cons, if_neg hp, tpfGet_cons, if_neg hp]
      apply ih
      simp only [List.any_cons, Bool.or_eq_true, decide_eq_true_eq] at hc
      exact hc.resolve_left hp

lemma tpfGet_append_eq (m : List (String × Nat)) (k : String) (n : Nat) :
    tpfGet (m ++ [(k, n)]) k = if m.any (fun p => p.1 = k) then tpfGet m k else n := by
  induction m with
  | nil => simp [tpfGet_cons]
  | cons p rest ih =>
    rw [List.cons_append, tpfGet_cons, tpfGet_cons]
    by_cases hp : p.1 = k
    · simp [hp]
    · simp only [if_neg hp, ih, List.any_cons]
      rw [decide_eq_false hp, Bool.false_or]

lemma tpfGet_tpfSet_eq (m : List (String × Nat)) (k : String) (n : Nat) :
    tpfGet (tpfSet m k n) k = n := by
  unfold tpfSet
  split
  · rename_i hc
    exact tpfGet_mapSet_eq m k n hc
  · rename_i hc
    rw [tpfGet_append_eq]
    simp only [Bool.not_eq_true] at hc
    rw [hc]
    simp

lemma tpfGet_mapSet_ne (m : List (String × Nat)) (k k' : String) (n : Nat) (h : k' ≠ k) :
    tpfGet (m.map (fun p => if p.1 = k then (k, n) else p)) k' = tpfGet m k' := by
  induction m with
  | nil => rfl
  | cons p rest ih =>
    by_cases hp : p.1 = k
    · rw [List.map_cons, if_pos hp, tpfGet_cons, tpfGet_cons,
        if_neg (show ¬ ((k, n).1 = k') from fun he => h (by simpa using he.symm)),
        if_neg (show ¬ (p.1 = k') from by rw [hp]; exact fun he => h he.symm), ih]
    · rw [List.map_cons, if_neg hp, tpfGet_cons, tpfGet_cons, ih]

lemma tpfGet_append_ne (m : List (String × Nat)) (k k' : String) (n : Nat) (h : k' ≠ k) :
    tpfGet (m ++ [(k, n)]) k' = tpfGet m k' := by
  induction m with
  | nil =>
    rw [List.nil_append, tpfGet_cons, if_neg (fun he => h he.symm)]
  | cons p rest ih =>
    rw [List.cons_append, tpfGet_cons, tpfGet_cons, ih]

lemma tpfGet_tpfSet_ne (m : List (String × Nat)) (k k' : String) (n : Nat) (h : k' ≠ k) :
    tpfGet (tpfSet m k n) k' = tpfGet m k' := by
  unfold tpfSet
  split
  · exact tpfGet_mapSet_ne m k k' n h
  · exact tpfGet_append_ne m k k' n h

lemma length_filter_partition : ∀ (keys : List String) (l : List HitRec), keys.Nodup →
    (∀ x ∈ l, fileKey x ∈ keys) →
    l.length = (keys.map (fun k => (l.filter (fun x => fileKey x = k)).length)).sum := by
  intro keys
  induction keys with
  | nil =>
    intro l _ hcov
    cases l with
    | nil => simp
    | cons x xs => exact absurd (hcov x (by simp)) (by simp)
  | cons k ks ih =>
    intro l hnd hcov
    simp only [List.nodup_cons] at hnd
    simp only [List.map_cons, List.sum_cons]
    have hsplit : l.length = (l.filter (fun x => fileKey x = k)).length
        + (l.filter (fun x => ! decide (fileKey x = k))).length :=
      List.length_eq_length_filter_add (fun x => decide (fileKey x = k))
    rw [hsplit]
    congr 1
    have hcov' : ∀ x ∈ l.filter (fun x => ! decide (fileKey x = k)), fileKey x ∈ ks := by
      intro x hx
      have hx' := List.mem_filter.mp hx
      have h1 : fileKey x ≠ k := by simpa using hx'.2
      have h2 := hcov x hx'.1
      simp only [List.mem_cons] at h2
      exact h2.resolve_left h1
    rw [ih (l.filter (fun x => ! decide (fileKey x = k))) hnd.2 hcov']
    congr 1
    apply List.map_congr_left
    intro k' hk'
    have hkk : k' ≠ k := fun he => hnd.1 (he ▸ hk')
    congr 1
    rw [List.filter_filter]
    apply List.filter_congr
    intro x hx
    by_cases hfx : fileKey x = k'
    · have hxk : ¬ (k' = k) := hkk
      simp [hfx, hxk]
    · simp [hfx]

structure DiverseCapInv (SF : List (String × List HitRec)) (top_k c : Nat) (st : DiverseState) :
    Prop where
  filt : ∀ key, st.selected.filter (fun x => fileKey x = key)
      = (bucketGet SF key).take (tpfGet st.takenPerFile key)
  cap : ∀ key, tpfGet st.takenPerFile key ≤ min c (bucketGet SF key).length
  used_eq : st.used = st.selected.map (fun x => x.chunk_id)
  len_le : st.selected.length ≤ top_k

lemma mem_bucketGet_flatMap {SF : List (String × List HitRec)} {key : String} {x : HitRec}
    (hx : x ∈ bucketGet SF key) : x ∈ SF.flatMap Prod.snd := by
  have hne : bucketGet SF key ≠ [] := by
    intro he
    rw [he] at hx
    cases hx
  obtain ⟨p, hp, _, hpb⟩ := bucketGet_mem_of_ne hne
  rw [← hpb] at hx
  exact List.mem_flatMap.mpr ⟨p, hp, hx⟩

lemma DiverseCapInv.selected_mem_take {SF : List (String × List HitRec)} {top_k c : Nat}
    {st : DiverseState} (hinv : DiverseCapInv SF top_k c st) {x : HitRec} (hx : x ∈ st.selected) :
    x ∈ (bucketGet SF (fileKey x)).take (tpfGet st.takenPerFile (fileKey x)) := by
  have hm : x ∈ st.selected.filter (fun y => fileKey y = fileKey x) :=
    List.mem_filter.mpr ⟨hx, by simp⟩
  rw [hinv.filt (fileKey x)] at hm
  exact hm

lemma DiverseCapInv.key_mem {SF : List (String × List HitRec)} {top_k c : Nat}
    {st : DiverseState} (hinv : DiverseCapInv SF top_k c st) {x : HitRec} (hx : x ∈ st.selected) :
    fileKey x ∈ SF.map Prod.fst := by
  have ht := hinv.selected_mem_take hx
  have hne : bucketGet SF (fileKey x) ≠ [] := by
    intro he
    rw [he] at ht
    simp at ht
  obtain ⟨p, hp, hpk, _⟩ := bucketGet_mem_of_ne hne
  rw [← hpk]
  exact List.mem_map_of_mem Prod.fst hp

lemma DiverseCapInv.len_eq {SF : List (String × List HitRec)} {top_k c : Nat}
    {st : DiverseState} (hWF : BucketsWF SF) (hinv : DiverseCapInv SF top_k c st) :
    st.selected.length = (SF.map (fun p => tpfGet st.takenPerFile p.1)).sum := by
  rw [length_filter_partition (SF.map Prod.fst) st.selected hWF.keys_nodup
    (fun x hx => hinv.key_mem hx), List.map_map]
  congr 1
  apply List.map_congr_left
  intro p hp
  simp only [Function.comp_apply]
  rw [hinv.filt p.1, List.length_take, bucketGet_of_mem hWF.keys_nodup hp]
  have hc := hinv.cap p.1
  rw [bucketGet_of_mem hWF.keys_nodup hp] at hc
  have h2 : tpfGet st.takenPerFile p.1 ≤ p.2.length := le_trans hc (min_le_right _ _)
  exact min_eq_left h2

lemma DiverseCapInv.len_le_total {SF : List (String × List HitRec)} {top_k c : Nat}
    {st : DiverseState} (hWF : BucketsWF SF) (hinv : DiverseCapInv SF top_k c st) :
    st.selected.length ≤ (SF.flatMap Prod.snd).length := by
  rw [hinv.len_eq hWF, List.length_flatMap]
  apply List.sum_le_sum
  intro p hp
  simp only [Function.comp_apply]
  have hc := hinv.cap p.1
  rw [bucketGet_of_mem hWF.keys_nodup hp] at hc
  exact le_trans hc (min_le_right _ _)

lemma no_dup_pick {SF : List (String × List HitRec)} {top_k c : Nat} {st : DiverseState}
    (hWF : BucketsWF SF) (hinv : DiverseCapInv SF top_k c st)
    {p : String × List HitRec} (hp : p ∈ SF) {idx : Nat} (hidx : idx < p.2.length)
    (htpf : tpfGet st.takenPerFile p.1 = idx)
    (hmem : st.used.contains (p.2[idx]).chunk_id = true) : False := by
  have hcmem : p.2[idx] ∈ p.2 := List.getElem_mem hidx
  rw [hinv.used_eq] at hmem
  have hmm : (p.2[idx]).chunk_id ∈ st.selected.map (fun x => x.chunk_id) :=
    List.mem_of_elem_eq_true hmem
  obtain ⟨y, hy, hyid⟩ := List.mem_map.mp hmm
  have hytake := hinv.selected_mem_take hy
  have hyflat : y ∈ SF.flatMap Prod.snd :=
    mem_bucketGet_flatMap (List.mem_of_mem_take hytake)
  have hcflat : p.2[idx] ∈ SF.flatMap Prod.snd := List.mem_flatMap.mpr ⟨p, hp, hcmem⟩
  have hyc : y = p.2[idx] :=
    List.inj_on_of_nodup_map hWF.ids_nodup hyflat hcflat hyid
  rw [hyc] at hytake
  have hkey : fileKey (p.2[idx]) = p.1 := hWF.item_key p hp (p.2[idx]) hcmem
  rw [hkey, bucketGet_of_mem hWF.keys_nodup hp, htpf] at hytake
  have hnodup : p.2.Nodup := by
    have hsub : p.2.Sublist (SF.flatMap Prod.snd) := by
      rw [List.flatMap_def]
      exact List.sublist_flatten_of_mem (List.mem_map_of_mem Prod.snd hp)
    exact List.Nodup.of_map (fun x => x.chunk_id)
      (List.Nodup.sublist (hsub.map (fun x => x.chunk_id)) hWF.ids_nodup)
  have hdrop : p.2[idx] ∈ p.2.drop idx := by
    rw [List.drop_eq_getElem_cons hidx]
    exact List.mem_cons_self _ _
  rw [← List.take_append_drop idx p.2] at hnodup
  have hdisj := (List.nodup_append.mp hnodup).2.2
  exact hdisj hytake hdrop

lemma diversePhase1_go {SF : List (String × List HitRec)} {top_k c target : Nat}
    (hWF : BucketsWF SF) (hc : 1 ≤ c) (htk : target ≤ top_k) :
    ∀ (l : List (String × List HitRec)) (st : DiverseState),
    (∀ p ∈ l, p ∈ SF) → (l.map Prod.fst).Nodup →
    (∀ p ∈ l, tpfGet st.takenPerFile p.1 = 0) →
    DiverseCapInv SF top_k c st →
    st.selected.length ≤ target →
    DiverseCapInv SF top_k c (l.foldl (fun st p =>
      if target ≤ st.selected.length then st
      else
        match p.2 with
        | [] => st
        | candidate :: _ =>
          if st.used.contains candidate.chunk_id then st
          else { selected := st.selected ++ [candidate]
                 used := st.used ++ [candidate.chunk_id]
                 takenPerFile := tpfSet st.takenPerFile p.1 1 }) st) ∧
    ((l.foldl (fun st p =>
      if target ≤ st.selected.length then st
      else
        match p.2 with
        | [] => st
        | candidate :: _ =>
          if st.used.contains candidate.chunk_id then st
          else { selected := st.selected ++ [candidate]
                 used := st.used ++ [candidate.chunk_id]
                 takenPerFile := tpfSet st.takenPerFile p.1 1 }) st).selected.length
      = min (st.selected.length + l.length) target) ∧
    (∀ key, tpfGet ((l.foldl (fun st p =>
      if target ≤ st.selected.length then st
      else
        match p.2 with
        | [] => st
        | candidate :: _ =>
          if st.used.contains candidate.chunk_id then st
          else { selected := st.selected ++ [candidate]
                 used := st.used ++ [candidate.chunk_id]
                 takenPerFile := tpfSet st.takenPerFile p.1 1 }) st).takenPerFile) key
      ≤ max (tpfGet st.takenPerFile key) 1) ∧
    (∃ ext, (l.foldl (fun st p =>
      if target ≤ st.selected.length then st
      else
        match p.2 with
        | [] => st
        | candidate :: _ =>
          if st.used.contains candidate.chunk_id then st
          else { selected := st.selected ++ [candidate]
                 used := st.used ++ [candidate.chunk_id]
                 takenPerFile := tpfSet st.takenPerFile p.1 1 }) st).selected
      = st.selected ++ ext) := by
  intro l
  induction l with
  | nil =>
    intro st _ _ _ hinv hlen
    refine ⟨hinv, ?_, fun key => le_max_left _ _, ⟨[], by simp⟩⟩
    simp only [List.foldl_nil, List.length_nil, Nat.add_zero]
    omega
  | cons p l ih =>
    intro st hsub hnd htpf0 hinv hlen
    simp only [List.map_cons, List.nodup_cons] at hnd
    have hpSF := hsub p (by simp)
    rw [List.foldl_cons]
    by_cases hstop : target ≤ st.selected.length
    · rw [if_pos hstop]
      have hst : st.selected.length = target := le_antisymm hlen hstop
      obtain ⟨h1, h2, h3, h4⟩ := ih st (fun q hq => hsub q (by simp [hq])) hnd.2
        (fun q hq => htpf0 q (by simp [hq])) hinv hlen
      refine ⟨h1, ?_, h3, h4⟩
      rw [h2]
      simp only [List.length_cons]
      omega
    · rw [if_neg hstop]
      push_neg at hstop
      cases hp2 : p.2 with
      | nil => exact absurd hp2 (hWF.buckets_ne p hpSF)
      | cons candidate rest2 =>
        have hcand_mem : candidate ∈ p.2 := by rw [hp2]; exact List.mem_cons_self _ _
        have hidx0 : 0 < p.2.length := by rw [hp2]; simp
        have hcand_get : p.2[0] = candidate := by
          have : p.2[0]? = some candidate := by rw [hp2]; simp
          rw [List.getElem?_eq_getElem hidx0] at this
          exact Option.some_injective _ this
        have htp : tpfGet st.takenPerFile p.1 = 0 := htpf0 p (by simp)
        have hcont : st.used.contains candidate.chunk_id = false := by
          by_contra hco
          rw [Bool.not_eq_false] at hco
          rw [← hcand_get] at hco
          exact no_dup_pick hWF hinv hpSF hidx0 htp hco
        simp only []
        rw [if_neg (by rw [hcont]; exact Bool.false_ne_true)]
        have hbg : bucketGet SF p.1 = p.2 := bucketGet_of_mem hWF.keys_nodup hpSF
        have hkey : fileKey candidate = p.1 := hWF.item_key p hpSF candidate hcand_mem
        set st1 : DiverseState := ({ selected := st.selected ++ [candidate], used := st.used ++ [candidate.chunk_id], takenPerFile := tpfSet st.takenPerFile p.1 1 } : DiverseState) with hst1
        have hinv1 : DiverseCapInv SF top_k c st1 := by
          refine ⟨?_, ?_, ?_, ?_⟩
          · intro key
            rw [hst1]
            simp only [List.filter_append]
            by_cases hkp : key = p.1
            · subst hkp
              rw [hinv.filt p.1, tpfGet_tpfSet_eq, hbg, htp]
              simp only [List.take_zero, List.nil_append]
              rw [hp2]
              simp [hkey]
            · rw [hinv.filt key, tpfGet_tpfSet_ne _ _ _ _ hkp]
              have : fileKey candidate ≠ key := by rw [hkey]; exact fun he => hkp he.symm
              simp [this]
          · intro key
            by_cases hkp : key = p.1
            · subst hkp
              rw [hst1]
              simp only
              rw [tpfGet_tpfSet_eq, hbg]
              omega
            · rw [hst1]
              simp only
              rw [tpfGet_tpfSet_ne _ _ _ _ hkp]
              exact hinv.cap key
          · rw [hst1]
            simp only [List.map_append, List.map_cons, List.map_nil]
            rw [hinv.used_eq]
          · rw [hst1]
            simp only [List.length_append, List.length_cons, List.length_nil]
            omega
        have htpf1 : ∀ q ∈ l, tpfGet st1.takenPerFile q.1 = 0 := by
          intro q hq
          have hqne : q.1 ≠ p.1 := by
            intro he
            exact hnd.1 (he ▸ List.mem_map_of_mem Prod.fst hq)
          rw [hst1]
          simp only
          rw [tpfGet_tpfSet_ne _ _ _ _ hqne]
          exact htpf0 q (by simp [hq])
        have hlen1 : st1.selected.length ≤ target := by
          rw [hst1]
          simp only [List.length_append, List.length_cons, List.length_nil]
          omega
        have hlen1e : st1.selected.length = st.selected.length + 1 := by
          rw [hst1]
          simp
        obtain ⟨h1, h2, h3, h4⟩ := ih st1 (fun q hq => hsub q (by simp [hq])) hnd.2
          htpf1 hinv1 hlen1
        refine ⟨h1, ?_, ?_, ?_⟩
        · rw [h2, hlen1e]
          simp only [List.length_cons]
          omega
        · intro key
          have h3k := h3 key
          by_cases hkp : key = p.1
          · subst hkp
            rw [hst1] at h3k
            simp only at h3k
            rw [tpfGet_tpfSet_eq] at h3k
            rw [htp]
            simpa using h3k
          · rw [hst1] at h3k
            simp only at h3k
            rw [tpfGet_tpfSet_ne _ _ _ _ hkp] at h3k
            exact h3k
        · obtain ⟨ext, hext⟩ := h4
          refine ⟨candidate :: ext, ?_⟩
          rw [hext, hst1]
          simp

structure PassInv (SF : List (String × List HitRec)) (top_k c : Nat)
    (acc : DiverseState × Bool × Bool) : Prop where
  inv : DiverseCapInv SF top_k c acc.1
  stop_prog : acc.2.2 = true → acc.2.1 = true
  stop_len : acc.2.2 = false → acc.1.selected.length < top_k

lemma diversePassStep_cases {SF : List (String × List HitRec)} {top_k c : Nat}
    (hWF : BucketsWF SF) {p : String × List HitRec} (hp : p ∈ SF)
    (acc : DiverseState × Bool × Bool) (hP : PassInv SF top_k c acc) :
    PassInv SF top_k c (diversePassStep top_k c acc p) ∧
    ((diversePassStep top_k c acc p = acc ∧
        (acc.2.2 = true ∨ min c p.2.length ≤ tpfGet acc.1.takenPerFile p.1)) ∨
      (∃ cand, (diversePassStep top_k c acc p).1.selected = acc.1.selected ++ [cand] ∧
        (diversePassStep top_k c acc p).2.1 = true)) := by
  obtain ⟨st, progress, stop⟩ := acc
  have hinv : DiverseCapInv SF top_k c st := hP.inv
  unfold diversePassStep
  simp only []
  by_cases hstop : stop = true
  · rw [if_pos hstop]
    exact ⟨hP, Or.inl ⟨rfl, Or.inl hstop⟩⟩
  · rw [if_neg hstop]
    rw [Bool.not_eq_true] at hstop
    have hlen : st.selected.length < top_k := hP.stop_len hstop
    by_cases hcap : c ≤ tpfGet st.takenPerFile p.1
    · rw [if_pos hcap]
      exact ⟨hP, Or.inl ⟨rfl, Or.inr (le_trans (min_le_left _ _) hcap)⟩⟩
    · rw [if_neg hcap]
      by_cases hlen2 : p.2.length ≤ tpfGet st.takenPerFile p.1
      · rw [if_pos hlen2]
        exact ⟨hP, Or.inl ⟨rfl, Or.inr (le_trans (min_le_right _ _) hlen2)⟩⟩
      · rw [if_neg hlen2]
        push_neg at hcap hlen2
        have hu : tpfGet st.takenPerFile p.1 < p.2.length := hlen2
        rw [List.getElem?_eq_getElem hu]
        simp only []
        have hcont : st.used.contains (p.2[tpfGet st.takenPerFile p.1]).chunk_id = false := by
          by_contra hco
          rw [Bool.not_eq_false] at hco
          exact no_dup_pick hWF hinv hp hu rfl hco
        rw [if_neg (by rw [hcont]; exact Bool.false_ne_true)]
        have hcmem : p.2[tpfGet st.takenPerFile p.1] ∈ p.2 := List.getElem_mem hu
        have hbg : bucketGet SF p.1 = p.2 := bucketGet_of_mem hWF.keys_nodup hp
        have hkey : fileKey (p.2[tpfGet st.takenPerFile p.1]) = p.1 :=
          hWF.item_key p hp _ hcmem
        have hinv2 : DiverseCapInv SF top_k c
            ({ selected := st.selected ++ [p.2[tpfGet st.takenPerFile p.1]], used := st.used ++ [(p.2[tpfGet st.takenPerFile p.1]).chunk_id], takenPerFile := tpfSet st.takenPerFile p.1 (tpfGet st.takenPerFile p.1 + 1) } : DiverseState) := by
          refine ⟨?_, ?_, ?_, ?_⟩
          · intro key
            simp only [List.filter_append]
            by_cases hkp : key = p.1
            · subst hkp
              rw [hinv.filt p.1, tpfGet_tpfSet_eq, hbg]
              rw [← List.take_concat_get p.2 (tpfGet st.takenPerFile p.1) hu]
              simp [hkey]
            · rw [hinv.filt key, tpfGet_tpfSet_ne _ _ _ _ hkp]
              have hne2 : fileKey (p.2[tpfGet st.takenPerFile p.1]) ≠ key := by
                rw [hkey]
                exact fun he => hkp he.symm
              simp [hne2]
          · intro key
            simp only
            by_cases hkp : key = p.1
            · subst hkp
              rw [tpfGet_tpfSet_eq, hbg]
              omega
            · rw [tpfGet_tpfSet_ne _ _ _ _ hkp]
              exact hinv.cap key
          · simp only [List.map_append, List.map_cons, List.map_nil]
            rw [hinv.used_eq]
          · simp only [List.length_append, List.length_cons, List.length_nil]
            omega
        by_cases hfin : top_k ≤ st.selected.length + 1
        · rw [if_pos (by simp only [List.length_append, List.length_cons, List.length_nil]; exact hfin)]
          refine ⟨⟨hinv2, fun _ => rfl, ?_⟩, Or.inr ⟨p.2[tpfGet st.takenPerFile p.1], rfl, rfl⟩⟩
          intro hco
          cases hco
        · rw [if_neg (by simp only [List.length_append, List.length_cons, List.length_nil]; exact hfin)]
          refine ⟨⟨hinv2, fun _ => rfl, ?_⟩, Or.inr ⟨p.2[tpfGet st.takenPerFile p.1], rfl, rfl⟩⟩
          intro _
          simp only [List.length_append, List.length_cons, List.length_nil]
          omega

lemma diversePass_go {SF : List (String × List HitRec)} {top_k c : Nat}
    (hWF : BucketsWF SF) :
    ∀ (l : List (String × List HitRec)) (acc : DiverseState × Bool × Bool),
    (∀ p ∈ l, p ∈ SF) → PassInv SF top_k c acc →
    PassInv SF top_k c (l.foldl (diversePassStep top_k c) acc) ∧
    (∃ ext, (l.foldl (diversePassStep top_k c) acc).1.selected = acc.1.selected ++ ext) ∧
    ((l.foldl (diversePassStep top_k c) acc).2.1 = false →
      l.foldl (diversePassStep top_k c) acc = acc ∧
      ∀ p ∈ l, min c p.2.length ≤ tpfGet acc.1.takenPerFile p.1) ∧
    (acc.2.1 = true → (l.foldl (diversePassStep top_k c) acc).2.1 = true) ∧
    (acc.2.1 = false → (l.foldl (diversePassStep top_k c) acc).2.1 = true →
      acc.1.selected.length < (l.foldl (diversePassStep top_k c) acc).1.selected.length) := by
  intro l
  induction l with
  | nil =>
    intro acc _ hP
    refine ⟨hP, ⟨[], by simp⟩, ?_, fun h => h, ?_⟩
    · intro _
      exact ⟨rfl, by simp⟩
    · intro h1 h2
      simp only [List.foldl_nil] at h2
      rw [h1] at h2
      cases h2
  | cons p l ih =>
    intro acc hsub hP
    have hpSF := hsub p (by simp)
    have hstep := diversePassStep_cases hWF hpSF acc hP
    rw [List.foldl_cons]
    obtain ⟨hrec1, ⟨ext, hext⟩, hrec3, hrec4, hrec5⟩ :=
      ih (diversePassStep top_k c acc p) (fun q hq => hsub q (by simp [hq])) hstep.1
    rcases hstep.2 with ⟨heq, hblk⟩ | ⟨cand, hcand, hprog⟩
    · rw [heq] at hrec1 hext hrec3 hrec4 hrec5 ⊢
      refine ⟨hrec1, ⟨ext, hext⟩, ?_, hrec4, hrec5⟩
      intro hnp
      obtain ⟨hre, hbl⟩ := hrec3 hnp
      refine ⟨hre, ?_⟩
      intro q hq
      rcases List.mem_cons.mp hq with hq | hq
      · subst hq
        rcases hblk with hst | hbd
        · exfalso
          have hpr := hrec4 (hP.stop_prog hst)
          rw [hnp] at hpr
          cases hpr
        · exact hbd
      · exact hbl q hq
    · refine ⟨hrec1, ?_, ?_, ?_, ?_⟩
      · refine ⟨cand :: ext, ?_⟩
        rw [hext, hcand, List.append_assoc]
        rfl
      · intro hnp
        exact absurd (hrec4 hprog) (by rw [hnp]; exact Bool.false_ne_true)
      · intro _
        exact hrec4 hprog
      · intro _ _
        rw [hext, hcand]
        simp only [List.length_append, List.length_cons, List.length_nil]
        omega

lemma diverseLoop_go {SF : List (String × List HitRec)} {top_k c : Nat}
    (hWF : BucketsWF SF) :
    ∀ (fuel : Nat) (st : DiverseState), DiverseCapInv SF top_k c st →
    (SF.flatMap Prod.snd).length + 1 ≤ st.selected.length + fuel →
    DiverseCapInv SF top_k c (diverseLoop SF top_k c fuel st) ∧
    (∃ ext, (diverseLoop SF top_k c fuel st).selected = st.selected ++ ext) ∧
    ((diverseLoop SF top_k c fuel st).selected.length = top_k ∨
      ∀ p ∈ SF, min c p.2.length ≤ tpfGet (diverseLoop SF top_k c fuel st).takenPerFile p.1) := by
  intro fuel
  induction fuel with
  | zero =>
    intro st hinv hfuel
    exfalso
    have := hinv.len_le_total hWF
    omega
  | succ fuel ih =>
    intro st hinv hfuel
    simp only [diverseLoop]
    by_cases hl : st.selected.length < top_k
    · rw [if_pos hl]
      have hP0 : PassInv SF top_k c (st, false, false) :=
        ⟨hinv, fun h => h, fun _ => hl⟩
      obtain ⟨hPf, ⟨ext, hext⟩, hnp, hmono, hinc⟩ :=
        diversePass_go hWF SF (st, false, false) (fun p hp => hp) hP0
      by_cases hpr : (SF.foldl (diversePassStep top_k c) (st, false, false)).2.1 = true
      · rw [if_pos hpr]
        have hlt : st.selected.length
            < (SF.foldl (diversePassStep top_k c) (st, false, false)).1.selected.length :=
          hinc rfl hpr
        obtain ⟨hI, ⟨e2, he2⟩, hdisj⟩ :=
          ih (SF.foldl (diversePassStep top_k c) (st, false, false)).1 hPf.inv (by omega)
        refine ⟨hI, ⟨ext ++ e2, ?_⟩, hdisj⟩
        rw [he2, hext]
        simp [List.append_assoc]
      · rw [if_neg hpr]
        rw [Bool.not_eq_true] at hpr
        obtain ⟨ho, hbl⟩ := hnp hpr
        rw [ho]
        exact ⟨hinv, ⟨[], by simp⟩, Or.inr hbl⟩
    · rw [if_neg hl]
      push_neg at hl
      exact ⟨hinv, ⟨[], by simp⟩, Or.inl (le_antisymm hinv.len_le hl)⟩

lemma diverseFill_noop (candidates : List HitRec) (top_k : Nat) (st : DiverseState)
    (h : top_k ≤ st.selected.length) : diverseFill candidates top_k st = st := by
  unfold diverseFill
  induction candidates with
  | nil => simp
  | cons x xs ih =>
    rw [List.foldl_cons, if_pos h]
    exact ih

lemma diverseFill_ext (candidates : List HitRec) (top_k : Nat) :
    ∀ (st : DiverseState), ∃ ext, (diverseFill candidates top_k st).selected
      = st.selected ++ ext := by
  unfold diverseFill
  induction candidates with
  | nil =>
    intro st
    exact ⟨[], by simp⟩
  | cons x xs ih =>
    intro st
    rw [List.foldl_cons]
    by_cases h1 : top_k ≤ st.selected.length
    · rw [if_pos h1]
      exact ih st
    · rw [if_neg h1]
      by_cases h2 : st.used.contains x.chunk_id = true
      · rw [if_pos h2]
        exact ih st
      · rw [if_neg h2]
        obtain ⟨ext, hext⟩ := ih ({ st with selected := st.selected ++ [x], used := st.used ++ [x.chunk_id] } : DiverseState)
        refine ⟨x :: ext, ?_⟩
        rw [hext]
        simp

lemma BucketsWF.perm {SF1 SF2 : List (String × List HitRec)} (h : SF1.Perm SF2)
    (hWF : BucketsWF SF1) : BucketsWF SF2 := by
  refine ⟨((h.map Prod.fst).nodup_iff).mp hWF.keys_nodup, ?_, ?_, ?_⟩
  · intro p hp
    exact hWF.item_key p (h.mem_iff.mpr hp)
  · intro p hp
    exact hWF.buckets_ne p (h.mem_iff.mpr hp)
  · exact (((List.Perm.flatMap_right Prod.snd h).map (fun x => x.chunk_id)).nodup_iff).mp
      hWF.ids_nodup

lemma bucketsOf_flatMap_perm (candidates : List HitRec) :
    ((bucketsOf candidates).flatMap Prod.snd).Perm candidates := by
  have h := bucketsOfAux_wf candidates [] (by simp) (by simp) (by simp)
  simpa [bucketsOf] using h.2.2.2

lemma diversePhase1_spec {SF : List (String × List HitRec)} {top_k c target : Nat}
    (hWF : BucketsWF SF) (hc : 1 ≤ c) (htk : target ≤ top_k) :
    DiverseCapInv SF top_k c (diversePhase1 SF target) ∧
    (diversePhase1 SF target).selected.length = min SF.length target ∧
    (∀ key, tpfGet (diversePhase1 SF target).takenPerFile key ≤ 1) := by
  have hinv0 : DiverseCapInv SF top_k c ⟨[], [], []⟩ := by
    refine ⟨fun key => by simp [tpfGet_nil], fun key => by simp [tpfGet_nil], by simp, by simp⟩
  obtain ⟨h1, h2, h3, _⟩ := diversePhase1_go hWF hc htk SF ⟨[], [], []⟩
    (fun p hp => hp) hWF.keys_nodup (fun p _ => tpfGet_nil _) hinv0 (by simp)
  unfold diversePhase1
  refine ⟨h1, ?_, ?_⟩
  · rw [h2]
    simp
  · intro key
    have := h3 key
    simpa [tpfGet_nil] using this

lemma diversePhase1_nodup_keys {SF : List (String × List HitRec)} {top_k c target : Nat}
    (hWF : BucketsWF SF) (hc : 1 ≤ c) (htk : target ≤ top_k) :
    ((diversePhase1 SF target).selected.map fileKey).Nodup := by
  obtain ⟨hinv1, _, htpf1⟩ := @diversePhase1_spec SF top_k c target hWF hc htk
  rw [List.nodup_iff_count_le_one]
  intro a
  rw [List.count_eq_countP, List.countP_map]
  have hconv : ((diversePhase1 SF target).selected.filter
      (fun x => fileKey x = a)).length ≤ 1 := by
    rw [hinv1.filt a]
    calc ((bucketGet SF a).take (tpfGet (diversePhase1 SF target).takenPerFile a)).length
        ≤ tpfGet (diversePhase1 SF target).takenPerFile a := by
          rw [List.length_take]
          exact min_le_left _ _
      _ ≤ 1 := htpf1 a
  calc List.countP ((fun x => x == a) ∘ fileKey) (diversePhase1 SF target).selected
      = ((diversePhase1 SF target).selected.filter (fun x => fileKey x = a)).length := by
        rw [List.countP_eq_length_filter]
        congr 1
    _ ≤ 1 := hconv

/-- C4 (amended): for candidates with pairwise-distinct chunk ids, writing
`c = max 1 (min per_file_cap 6)` and `m = max 1 (min min_files 10)` for the
clamped parameters, `_select_diverse_hits` (a) returns chunks from at least
`min(number of distinct file keys, m, top_k)` distinct files, and (b) keeps
at most `c` chunks per file provided `top_k` does not exceed the total
cap-respecting pool `sum over buckets of min c (bucket size)` (so the greedy
fill phase, which ignores the cap, never runs). -/
theorem select_diverse_hits_diversity (candidates : List HitRec)
    (top_k per_file_cap min_files : Nat)
    (hnd : (candidates.map (fun x => x.chunk_id)).Nodup) :
    min (min (bucketsOf candidates).length (max 1 (min min_files 10))) top_k
      ≤ ((select_diverse_hits candidates top_k per_file_cap min_files).map fileKey).toFinset.card
    ∧ (top_k ≤ ((bucketsOf candidates).map
          (fun p => min (max 1 (min per_file_cap 6)) p.2.length)).sum →
        ∀ key, ((select_diverse_hits candidates top_k per_file_cap min_files).filter
          (fun x => fileKey x = key)).length ≤ max 1 (min per_file_cap 6)) := by
  by_cases hemp : candidates = []
  · subst hemp
    constructor
    · rw [select_diverse_hits]
      simp [bucketsOf, bucketsOfAux]
    · intro _ key
      rw [select_diverse_hits]
      simp
  · rw [select_diverse_hits, if_neg hemp]
    simp only []
    set c := max 1 (min per_file_cap 6) with hc
    set m := max 1 (min min_files 10) with hm
    set SF := stableSortBy (fun a b => decide (bucketScore b ≤ bucketScore a))
      (bucketsOf candidates) with hSFd
    set target := min (min SF.length m) top_k with htarget
    have hWF0 : BucketsWF (bucketsOf candidates) := bucketsOf_wf candidates hnd
    have hsp : SF.Perm (bucketsOf candidates) := stableSortBy_perm _ _
    have hWF : BucketsWF SF := BucketsWF.perm hsp.symm hWF0
    have hflat : (SF.flatMap Prod.snd).Perm candidates :=
      (List.Perm.flatMap_right Prod.snd hsp).trans (bucketsOf_flatMap_perm candidates)
    have hc1 : 1 ≤ c := le_max_left _ _
    have htk : target ≤ top_k := min_le_right _ _
    have htSF : target ≤ SF.length := le_trans (min_le_left _ _) (min_le_left _ _)
    obtain ⟨hinv1, hlen1, htpf1⟩ := @diversePhase1_spec SF top_k c target hWF hc1 htk
    have hl1 : (diversePhase1 SF target).selected.length = target := by
      rw [hlen1, min_eq_right htSF]
    obtain ⟨hinv2, ⟨e2, he2⟩, hdisj⟩ := diverseLoop_go hWF (candidates.length + 1)
      (diversePhase1 SF target) hinv1 (by rw [hflat.length_eq]; omega)
    obtain ⟨e3, he3⟩ := diverseFill_ext candidates top_k
      (diverseLoop SF top_k c (candidates.length + 1) (diversePhase1 SF target))
    constructor
    · have hresult : ((diverseFill candidates top_k
          (diverseLoop SF top_k c (candidates.length + 1)
            (diversePhase1 SF target))).selected.take top_k)
          = (diversePhase1 SF target).selected ++ (e2 ++ e3).take (top_k - target) := by
        rw [he3, he2, List.append_assoc, List.take_append_eq_append_take,
          List.take_of_length_le (by rw [hl1]; exact htk), hl1]
      have hSFlen : SF.length = (bucketsOf candidates).length := hsp.length_eq
      rw [hresult, List.map_append, List.toFinset_append]
      have hnd1 : ((diversePhase1 SF target).selected.map fileKey).Nodup :=
        @diversePhase1_nodup_keys SF top_k c target hWF hc1 htk
      have hcard : ((diversePhase1 SF target).selected.map fileKey).toFinset.card = target := by
        rw [List.toFinset_card_of_nodup hnd1, List.length_map, hl1]
      calc min (min (bucketsOf candidates).length m) top_k
          = target := by rw [htarget, hSFlen]
        _ = ((diversePhase1 SF target).selected.map fileKey).toFinset.card := hcard.symm
        _ ≤ _ := Finset.card_le_card Finset.subset_union_left
    · intro hsum key
      have hsumSF : top_k ≤ (SF.map (fun p => min c p.2.length)).sum := by
        rw [(hsp.map (fun p => min c p.2.length)).sum_eq]
        exact hsum
      have hlen2 : (diverseLoop SF top_k c (candidates.length + 1)
          (diversePhase1 SF target)).selected.length = top_k := by
        rcases hdisj with h | hbl
        · exact h
        · have hle := hinv2.len_le
          have hge : top_k ≤ (diverseLoop SF top_k c (candidates.length + 1)
              (diversePhase1 SF target)).selected.length := by
            rw [hinv2.len_eq hWF]
            exact le_trans hsumSF (List.sum_le_sum (fun p hp => hbl p hp))
          omega
      rw [diverseFill_noop candidates top_k _ (le_of_eq hlen2.symm),
        List.take_of_length_le (le_of_eq hlen2), hinv2.filt key]
      calc ((bucketGet SF key).take (tpfGet (diverseLoop SF top_k c (candidates.length + 1)
            (diversePhase1 SF target)).takenPerFile key)).length
          ≤ tpfGet (diverseLoop SF top_k c (candidates.length + 1)
            (diversePhase1 SF target)).takenPerFile key := by
            rw [List.length_take]
            exact min_le_left _ _
        _ ≤ c := le_trans (hinv2.cap key) (min_le_left _ _)

def c4Hit (cid : String) (sc : ℚ) : HitRec :=
  { chunk_id := cid, file_id := "F1", library_id := "L1", file_name := "doc.txt",
    snippet := "s", score := sc, source := "vector", matched_entities := [],
    vector_similarity := 0, keyword_overlap := 0, graph_overlap := 0,
    entity_overlap := 0, anchor_overlap := 0, query_focus_overlap := 0 }

def c4Cands : List HitRec :=
  [c4Hit "c1" 5, c4Hit "c2" 4, c4Hit "c3" 3, c4Hit "c4" 2, c4Hit "c5" 1]

/-- C4 (counterexample): with five candidates all from file `F1`,
`top_k = 4`, `per_file_cap = 2` and `min_files = 3`, `_select_diverse_hits`
returns four chunks from the single file `F1`: the final greedy fill loop
(kb_service.py:1693-1701) appends candidates without consulting
`taken_per_file`, so the per-file cap is exceeded. -/
theorem select_diverse_hits_cap_counterexample :
    2 < ((select_diverse_hits c4Cands 4 2 3).filter
      (fun x => fileKey x = "F1")).length := by
  decide

def w4Hit (cid fid : String) (sc : ℚ) : HitRec :=
  { chunk_id := cid, file_id := fid, library_id := "L1", file_name := "",
    snippet := "s", score := sc, source := "vector", matched_entities := [],
    vector_similarity := 0, keyword_overlap := 0, graph_overlap := 0,
    entity_overlap := 0, anchor_overlap := 0, query_focus_overlap := 0 }

def w4Cands : List HitRec := [w4Hit "a1" "FA" 5, w4Hit "b1" "FB" 4, w4Hit "a2" "FA" 3]

/-- C4 witness: the amended theorem applied to a concrete three-candidate,
two-file instance with `top_k = 2`, `per_file_cap = 1`, `min_files = 2`. -/
theorem select_diverse_hits_diversity_witness :
    ((w4Cands.map (fun x => x.chunk_id)).Nodup) ∧
    (min (min (bucketsOf w4Cands).length (max 1 (min 2 10))) 2
      ≤ ((select_diverse_hits w4Cands 2 1 2).map fileKey).toFinset.card
    ∧ (2 ≤ ((bucketsOf w4Cands).map
          (fun p => min (max 1 (min 1 6)) p.2.length)).sum →
        ∀ key, ((select_diverse_hits w4Cands 2 1 2).filter
          (fun x => fileKey x = key)).length ≤ max 1 (min 1 6))) :=
  ⟨by decide, select_diverse_hits_diversity w4Cands 2 1 2 (by decide)⟩

end RagPlatform
